import Mathlib

/-!
Verification of the text-canonicalisation and list-reconciliation core of
`sync.py` (the K-Pop Bangers audio→video playlist helper).  Strings are
modelled as `List Char`.  The optional `unidecode` transliteration step is an
explicit function parameter (the program falls back to the identity when the
library is absent); all regular expressions of the source are expanded into
executable scanners that follow the Python `re` engine's leftmost-match,
lazy/greedy and alternation-order semantics for the concrete patterns used.
-/

namespace KpbSync

/-- ASCII lower-case letter, `a`–`z`. -/
def isLowerAZ (c : Char) : Bool := decide (97 ≤ c.toNat ∧ c.toNat ≤ 122)

/-- ASCII upper-case letter, `A`–`Z`. -/
def isUpperAZ (c : Char) : Bool := decide (65 ≤ c.toNat ∧ c.toNat ≤ 90)

/-- ASCII digit, `0`–`9`. -/
def isDigitC (c : Char) : Bool := decide (48 ≤ c.toNat ∧ c.toNat ≤ 57)

/-- The character class `[0-9A-Za-z]` used by `_CANON_RE`. -/
def isWordChar (c : Char) : Bool := isDigitC c || isUpperAZ c || isLowerAZ c

/-- Python's regex class `\s` (equivalently `str.isspace`): ASCII whitespace
`\t`–`\r` and space, the file/group/record/unit separators, NEL, NBSP, Ogham
space mark, the U+2000–U+200A spaces, LS, PS, NNBSP, MMSP and ideographic
space. -/
def isPySpace (c : Char) : Bool :=
  decide (c.toNat = 32 ∨ (9 ≤ c.toNat ∧ c.toNat ≤ 13) ∨
    (28 ≤ c.toNat ∧ c.toNat ≤ 31) ∨ c.toNat = 133 ∨ c.toNat = 160 ∨
    c.toNat = 5760 ∨ (8192 ≤ c.toNat ∧ c.toNat ≤ 8202) ∨ c.toNat = 8232 ∨
    c.toNat = 8233 ∨ c.toNat = 8239 ∨ c.toNat = 8287 ∨ c.toNat = 12288)

/-- Python `str.lower`, modelled on the ASCII range (the only case mapping
relevant after canonicalisation strips every non-ASCII character). -/
def pyLower (c : Char) : Char :=
  if 65 ≤ c.toNat ∧ c.toNat ≤ 90 then Char.ofNat (c.toNat + 32) else c

/-- `pat` is a prefix of `s` (plain character equality). -/
def starts : List Char → List Char → Bool
  | [], _ => true
  | _ :: _, [] => false
  | a :: as, b :: bs => a = b && starts as bs

/-- `pat` occurs somewhere inside `s` as a contiguous substring. -/
def occursWithin (pat : List Char) : List Char → Bool
  | [] => starts pat []
  | c :: rest => starts pat (c :: rest) || occursWithin pat rest

/-- Fuelled worker for `strReplace`.  When the fuel is exhausted the rest of
the string is returned unchanged; `strReplace` always supplies enough fuel
(one unit per character of the input). -/
def srAux (bad good : List Char) : Nat → List Char → List Char
  | 0, s => s
  | _ + 1, [] => []
  | f + 1, c :: rest =>
    if bad ≠ [] ∧ starts bad (c :: rest) then
      good ++ srAux bad good f (List.drop (bad.length - 1) rest)
    else
      c :: srAux bad good f rest

/-- Python `str.replace bad good`: replace every non-overlapping occurrence of
`bad`, scanning left to right, never rescanning replacement text.  All
override patterns of the program are non-empty; an empty pattern is treated
as a no-op here. -/
def strReplace (bad good s : List Char) : List Char :=
  srAux bad good s.length s

/-- The `OVERRIDES` table of `sync.py`, in declaration (= dict insertion)
order. -/
def OVERRIDES : List (List Char × List Char) :=
  [(("ji hoon").toList, ("jihoon").toList),
   ((" jonas brothers").toList, ([])),
   (("g i dle").toList, ("i dle").toList),
   (("cant we just leave the monster alive").toList,
    ("cant we leave the monster alive").toList)]

/-- `for bad, good in OVERRIDES.items(): txt = txt.replace(bad, good)`. -/
def applyOverrides (s : List Char) : List Char :=
  OVERRIDES.foldl (fun t p => strReplace p.1 p.2 t) s

/-- Fuelled worker for `canonSub`, the global substitution
`_CANON_RE.sub(" ", txt)` with
`_CANON_RE = (\([^)]*\)|\[[^\]]*\]|[^0-9A-Za-z\s])`.
At each position the alternatives are tried in order: a parenthesised run up
to the first `)`, a bracketed run up to the first `]`, else a single
non-word non-space character; each match is replaced by one space.  When the
fuel is exhausted the rest of the string is returned unchanged; `canonSub`
always supplies enough fuel. -/
def canonSubAux : Nat → List Char → List Char
  | 0, s => s
  | _ + 1, [] => []
  | f + 1, c :: rest =>
    if c = '(' ∧ rest.contains ')' then
      ' ' :: canonSubAux f (List.drop 1 (rest.dropWhile (fun d => d ≠ ')')))
    else if c = '[' ∧ rest.contains ']' then
      ' ' :: canonSubAux f (List.drop 1 (rest.dropWhile (fun d => d ≠ ']')))
    else if isWordChar c || isPySpace c then
      c :: canonSubAux f rest
    else
      ' ' :: canonSubAux f rest

/-- `_CANON_RE.sub(" ", txt)`. -/
def canonSub (s : List Char) : List Char :=
  canonSubAux s.length s

/-- Worker for `collapseWs`; the flag records whether the scanner is inside a
whitespace run whose single replacement space has already been emitted. -/
def collapseWsAux : Bool → List Char → List Char
  | _, [] => []
  | b, c :: rest =>
    if isPySpace c then
      if b then collapseWsAux true rest else ' ' :: collapseWsAux true rest
    else
      c :: collapseWsAux false rest

/-- `re.sub(r"\s+", " ", txt)`: every maximal run of whitespace becomes one
single space. -/
def collapseWs (s : List Char) : List Char :=
  collapseWsAux false s

/-- Drop the longest suffix of characters satisfying `p` (the trailing half
of Python's `strip`/`rstrip`). -/
def dropTrailingP (p : Char → Bool) : List Char → List Char
  | [] => []
  | c :: rest =>
    match dropTrailingP p rest with
    | [] => if p c then [] else [c]
    | d :: ds => c :: d :: ds

/-- Python `str.strip()`: remove leading and trailing whitespace. -/
def pyStrip (s : List Char) : List Char :=
  dropTrailingP isPySpace (s.dropWhile isPySpace)

/-- `canonical` of `sync.py`:
`txt = unidecode(raw).lower()`, then the overrides, then
`_CANON_RE.sub(" ", txt)`, then `re.sub(r"\s+", " ", txt).strip()`.
`translit` stands for the optional `unidecode` dependency (identity when the
library is missing; the real library maps into ASCII and is the identity on
ASCII input). -/
def canonical (translit : List Char → List Char) (raw : List Char) : List Char :=
  pyStrip (collapseWs (canonSub (applyOverrides ((translit raw).map pyLower))))

/-- The keyword alternation `(?:mv|official|dance|live|perf|inkigayo)` of
`_VARIANT_RE`, in alternation order. -/
def variantKeywords : List (List Char) :=
  [("mv").toList, ("official").toList, ("dance").toList, ("live").toList,
   ("perf").toList, ("inkigayo").toList]

/-- Case-insensitive prefix test (re.I, modelled on ASCII case folding): the
pattern `pat` is already lower-case. -/
def ciStarts : List Char → List Char → Bool
  | [], _ => true
  | _ :: _, [] => false
  | a :: as, b :: bs => a = pyLower b && ciStarts as bs

/-- If one of the variant keywords matches case-insensitively at the head of
`s`, its length.  The keywords have pairwise distinct first letters, so at
most one can match at a given position. -/
def kwAt (s : List Char) : Option Nat :=
  variantKeywords.findSome? fun kw => if ciStarts kw s then some kw.length else none

/-- An opening bracket of the class `[\[\(]`. -/
def isOpenBr (c : Char) : Bool := c = '(' || c = '['

/-- A closing bracket of the class `[\]\)]`. -/
def isCloseBr (c : Char) : Bool := c = ')' || c = ']'

/-- After a keyword: the greedy `[^\]\)]*` is forced to stop right before the
first closing bracket, which `[\]\)]` then consumes, and `\s*$` must accept
the rest of the string.  Returns the length of the `[^\]\)]*` part on
success. -/
def closeScan : List Char → Option Nat
  | [] => none
  | c :: rest =>
    if isCloseBr c then (if rest.all isPySpace then some 0 else none)
    else (closeScan rest).map fun j => j + 1

/-- The lazy `.*?(?:kw)[^\]\)]*[\]\)]\s*$` part of `_VARIANT_RE`, applied to
the text after an opening bracket.  The lazy `.*?` grows one character at a
time (never across a newline, since `.` does not match `\n`); at each
position the keyword alternation is tried first.  Returns the number of
characters of the named group consumed after the opening bracket. -/
def tagBody : List Char → Option Nat
  | [] => none
  | c :: rest =>
    match
      (match kwAt (c :: rest) with
       | some klen => (closeScan (List.drop klen (c :: rest))).map fun j => klen + j + 1
       | none => none) with
    | some g => some g
    | none => if c = '\n' then none else (tagBody rest).map fun g => g + 1

/-- A match of the full `tag` group of `_VARIANT_RE` anchored at the head of
`s`: an opening bracket followed by a successful `tagBody`.  Returns the
group length. -/
def tagMatch (s : List Char) : Option Nat :=
  match s with
  | [] => none
  | c :: rest => if isOpenBr c then (tagBody rest).map fun g => g + 1 else none

/-- `re.search` for `_VARIANT_RE`: try every start position left to right and
return the span `(start, end)` of the `tag` group of the leftmost match. -/
def variantSearch : List Char → Nat → Option (Nat × Nat)
  | s, pos =>
    match tagMatch s with
    | some g => some (pos, pos + g)
    | none =>
      match s with
      | [] => none
      | _ :: rest => variantSearch rest (pos + 1)

/-- The separator set of `title[:start].rstrip(" -–:_")`. -/
def isSep (c : Char) : Bool := c = ' ' || c = '-' || c = '–' || c = ':' || c = '_'

/-- `split_variant` of `sync.py`: if `_VARIANT_RE` matches, the text before
the tag trimmed of trailing separators paired with the tag text; otherwise
`(title.strip(), "")`. -/
def split_variant (title : List Char) : List Char × List Char :=
  match variantSearch title 0 with
  | none => (pyStrip title, [])
  | some (st, en) => (dropTrailingP isSep (title.take st), (title.take en).drop st)

/-- A target item as the audio key adapter sees it: the attributes probed by
`_safe_attr` and `getattr`.  `none` models a missing attribute (including
the cases where `_safe_attr` swallows a raising callable); a present
attribute is a string, possibly empty. -/
structure AudioItem where
  grandparentTitle : Option (List Char)
  artist : Option (List Char)
  parentTitle : Option (List Char)
  title : Option (List Char)
deriving DecidableEq

/-- `_safe_attr`: the first present, truthy (non-empty) value among the named
attributes, else `""`. -/
def safeAttr : List (Option (List Char)) → List Char
  | [] => []
  | none :: rest => safeAttr rest
  | some v :: rest => if v = [] then safeAttr rest else v

/-- `plex_key_audio`:
`artist = _safe_attr(itm,"grandparentTitle","artist","parentTitle") or "<Unknown>"`,
`title = getattr(itm, "title", "<Untitled>")`, returning
`(canonical(f"{artist} {title}"), f"{artist} – {title}")`. -/
def plex_key_audio (translit : List Char → List Char) (itm : AudioItem) :
    List Char × List Char :=
  let artist :=
    match safeAttr [itm.grandparentTitle, itm.artist, itm.parentTitle] with
    | [] => ("<Unknown>").toList
    | c :: rest => c :: rest
  let title := itm.title.getD (("<Untitled>").toList)
  (canonical translit (artist ++ ' ' :: title), artist ++ (" – ").toList ++ title)

/-- One entry of the source (Apple) list as `ledger` consumes it: the fields
`idx` (1-based playlist position), `canon` and `label` of the dicts built by
`load_xml`. -/
structure SrcEntry where
  idx : Nat
  canon : List Char
  label : List Char
deriving DecidableEq

/-- A row status, the `stat` column of `ledger`:  `unchanged` is `"·"`,
`up n` is `"↑n"`, `down n` is `"↓n"`, `approx` is `"≈"`, `removed` is `"–"`
and `added` is `"+"`. -/
inductive Stat where
  | unchanged : Stat
  | up : Nat → Stat
  | down : Nat → Stat
  | approx : Stat
  | removed : Stat
  | added : Stat
deriving DecidableEq

/-- One row of `ledger` before the video duplicate collapse:
`(s, p_idx, stat, label, canonicalKey)` with `none` standing for the `"–"`
sentinel. -/
structure Row where
  src : Option Nat
  pos : Option Nat
  stat : Stat
  label : List Char
  ck : List Char
deriving DecidableEq

/-- A row after the canonical-key column is dropped (`rows_simple`). -/
structure SimpleRow where
  src : Option Nat
  pos : Option Nat
  stat : Stat
  label : List Char
deriving DecidableEq

/-- The `stats` dict of `ledger`: `dict(add=0, remove=0, up=0, down=0)`. -/
structure Stats where
  add : Nat
  remove : Nat
  up : Nat
  down : Nat
deriving DecidableEq

/-- Python-dict insert: overwrite the value of an existing key in place,
else append the binding (insertion order of keys is preserved). -/
def dictInsert (k : List Char) (v : Nat) : List (List Char × Nat) → List (List Char × Nat)
  | [] => [(k, v)]
  | e :: rest => if e.1 = k then (k, v) :: rest else e :: dictInsert k v rest

/-- Dict lookup; each key occurs at most once in a dict built by
`dictInsert`. -/
def dictLookup (m : List (List Char × Nat)) (k : List Char) : Option Nat :=
  match m.find? (fun e => e.1 = k) with
  | some e => some e.2
  | none => none

/-- Dict key view, in insertion order. -/
def dictKeys (m : List (List Char × Nat)) : List (List Char) := m.map (fun e => e.1)

/-- `src_map = {t["canon"]: t["idx"] for t in src}` — a dict comprehension,
so for duplicate canonical keys the binding written last (the later source
entry) wins. -/
def srcMapOf (src : List SrcEntry) : List (List Char × Nat) :=
  src.foldl (fun m t => dictInsert t.canon t.idx m) []

/-- Membership in the `seen` set. -/
def memSeen (seen : List (List Char)) (k : List Char) : Bool := seen.contains k

/-- `seen.add(k)`. -/
def insertSeen (seen : List (List Char)) (k : List Char) : List (List Char) :=
  if memSeen seen k then seen else k :: seen

/-- `dup[k] += 1` on the `defaultdict(int)`. -/
def bumpDup (k : List Char) : List (List Char × Nat) → List (List Char × Nat)
  | [] => [(k, 1)]
  | e :: rest => if e.1 = k then (e.1, e.2 + 1) :: rest else e :: bumpDup k rest

/-- `dup.get(ck, 1)`. -/
def dupGet (d : List (List Char × Nat)) (k : List Char) : Nat :=
  match d.find? (fun e => e.1 = k) with
  | some e => e.2
  | none => 1

/-- The fixed fuzzy-match acceptance threshold. -/
def THRESH : Nat := 90

/-- The status computed from `offs = p_idx - s`:
`"·" if offs == 0 else ("↑"+str(abs(offs)) if offs > 0 else "↓"+str(abs(offs)))`. -/
def offsetStat (p s : Nat) : Stat :=
  let offs : Int := (p : Int) - (s : Int)
  if offs = 0 then Stat.unchanged
  else if 0 < offs then Stat.up offs.toNat
  else Stat.down (-offs).toNat

/-- An injected similarity function standing for
`process.extractOne(key, choices)`: given the query key and the choice list
it may return a best candidate together with its 0–100 score.  A genuine
`extractOne` only ever returns an element of its choices. -/
def FuzzyFn : Type := List Char → List (List Char) → Option (List Char × Nat)

/-- The mutable state of one `ledger` run: the `seen` set, the accumulated
`rows`, the `stats` counters and the video duplicate counter `dup`. -/
structure LedgerState where
  seen : List (List Char)
  rows : List Row
  stats : Stats
  dup : List (List Char × Nat)
deriving DecidableEq

/-- The initial ledger state. -/
def initState : LedgerState := ⟨[], [], ⟨0, 0, 0, 0⟩, []⟩

/-- The body of `ledger`'s target loop for one item `(k, l)` at 1-based
position `p`:  bump the video duplicate counter when `k` is a source key;
exact-match branch on `k in src_map` (no consumption check); otherwise the
fuzzy branch (`process.extractOne(k, src_map.keys())`, accepted when the
score reaches `THRESH` and the candidate is unconsumed — the source indexes
`src_map[m[0]]`, which a genuine similarity function always provides);
otherwise a removed row when `mode != "audio-only"`. -/
def ledgerStep (srcm : List (List Char × Nat)) (fuzzy : Option FuzzyFn)
    (removals : Bool) (is_video : Bool) (st : LedgerState) (p : Nat)
    (kl : List Char × List Char) : LedgerState :=
  let k := kl.1
  let l := kl.2
  let st :=
    { st with
      dup := if is_video ∧ (dictLookup srcm k).isSome then bumpDup k st.dup else st.dup }
  match dictLookup srcm k with
  | some s =>
    { st with
      rows := st.rows ++ [⟨some s, some p, offsetStat p s, l, k⟩],
      seen := insertSeen st.seen k,
      stats :=
        { st.stats with
          up := st.stats.up + (if 0 < (p : Int) - (s : Int) then 1 else 0),
          down := st.stats.down + (if (p : Int) - (s : Int) < 0 then 1 else 0) } }
  | none =>
    let hit : Option (Nat × List Char) :=
      match fuzzy with
      | none => none
      | some f =>
        match f k (dictKeys srcm) with
        | none => none
        | some (cand, score) =>
          if THRESH ≤ score ∧ ¬ memSeen st.seen cand then
            match dictLookup srcm cand with
            | some s => some (s, cand)
            | none => none
          else none
    match hit with
    | some (s, cand) =>
      { st with
        rows := st.rows ++ [⟨some s, some p, Stat.approx, l, cand⟩],
        seen := insertSeen st.seen cand }
    | none =>
      if removals then
        { st with
          rows := st.rows ++ [⟨none, some p, Stat.removed, l, k⟩],
          stats := { st.stats with remove := st.stats.remove + 1 } }
      else st

/-- `for p_idx, itm in enumerate(items, 1): ...` — fold `ledgerStep` over the
target list, threading the 1-based position. -/
def ledgerLoop (srcm : List (List Char × Nat)) (fuzzy : Option FuzzyFn)
    (removals : Bool) (is_video : Bool) :
    LedgerState → Nat → List (List Char × List Char) → LedgerState
  | st, _, [] => st
  | st, p, kl :: rest =>
    ledgerLoop srcm fuzzy removals is_video
      (ledgerStep srcm fuzzy removals is_video st p kl) (p + 1) rest

/-- `for t in src: if t["canon"] not in seen: ...` — one added row per source
entry never consumed (the `seen` set is not extended here, so duplicate
source keys yield several added rows). -/
def addPhase (src : List SrcEntry) (st : LedgerState) : LedgerState :=
  src.foldl
    (fun st t =>
      if memSeen st.seen t.canon then st
      else
        { st with
          rows := st.rows ++ [⟨some t.idx, none, Stat.added, t.label, t.canon⟩],
          stats := { st.stats with add := st.stats.add + 1 } })
    st

/-- Decimal rendering of a counter for the label annotation. -/
def natToChars (n : Nat) : List Char := (toString n).toList

/-- The video duplicate collapse: keep only the first row per canonical key
and annotate its label with `" (x{cnt} variants)"` when the target duplicate
count exceeds one and the row is not an added row. -/
def collapseRows (dup : List (List Char × Nat)) :
    List Row → List (List Char) → List SimpleRow
  | [], _ => []
  | r :: rest, done =>
    if done.contains r.ck then collapseRows dup rest done
    else
      let cnt := dupGet dup r.ck
      let lab :=
        if 1 < cnt ∧ r.stat ≠ Stat.added then
          r.label ++ (" (x").toList ++ natToChars cnt ++ (" variants)").toList
        else r.label
      ⟨r.src, r.pos, r.stat, lab⟩ :: collapseRows dup rest (r.ck :: done)

/-- The sort key `(r[0] if r[0] != "–" else 1e9, r[1])`. -/
def rowKey (r : SimpleRow) : Nat × Nat :=
  (r.src.getD 1000000000, r.pos.getD 1000000000)

/-- Lexicographic order on sort keys. -/
def keyLE (a b : Nat × Nat) : Bool :=
  a.1 < b.1 || (a.1 = b.1 && a.2 ≤ b.2)

/-- Stable insertion into a key-sorted list: an element entering from the
left goes before every element of equal key. -/
def insertSorted (x : SimpleRow) : List SimpleRow → List SimpleRow
  | [] => [x]
  | y :: ys => if keyLE (rowKey x) (rowKey y) then x :: y :: ys else y :: insertSorted x ys

/-- Stable sort by `rowKey` (a stable sort is uniquely determined by its
key, so this agrees with Python's `list.sort`). -/
def sortRows : List SimpleRow → List SimpleRow
  | [] => []
  | x :: xs => insertSorted x (sortRows xs)

/-- The final `LedgerState` of a run: the target loop followed by the added
phase.  `is_video` models `key_fn is plex_key_video`; the removals flag is
`mode != "audio-only"`. -/
def ledgerState (src : List SrcEntry) (items : List (List Char × List Char))
    (is_video : Bool) (mode : List Char) (fuzzy : Option FuzzyFn) : LedgerState :=
  addPhase src
    (ledgerLoop (srcMapOf src) fuzzy (mode ≠ ("audio-only").toList) is_video
      initState 1 items)

/-- `ledger` of `sync.py`, as the pure core: the produced `rows_simple`
(after the video collapse and the final sort) together with the returned
`stats`.  The console rendering of the rows is external I/O and is not
modelled. -/
def ledger (src : List SrcEntry) (items : List (List Char × List Char))
    (is_video : Bool) (mode : List Char) (fuzzy : Option FuzzyFn) :
    List SimpleRow × Stats :=
  let st := ledgerState src items is_video mode fuzzy
  let simple :=
    if is_video then collapseRows st.dup st.rows []
    else st.rows.map (fun r => ⟨r.src, r.pos, r.stat, r.label⟩)
  (sortRows simple, st.stats)

/-- The fold of §4.4 step 6 of the specification, counting row statuses into
`LedgerStats`: added rows increment `add`, removed rows `remove`, `up` rows
`up`, `down` rows `down`; unchanged and approximate rows increment
nothing. -/
def statsOfStats (l : List Stat) : Stats :=
  ⟨l.countP (fun s => s = Stat.added),
   l.countP (fun s => s = Stat.removed),
   l.countP (fun s => match s with | Stat.up _ => true | _ => false),
   l.countP (fun s => match s with | Stat.down _ => true | _ => false)⟩

/-- Modelled from the spec (§4.4 step 2b): the claimed variant of the fuzzy
branch in which the similarity function is queried against only the
not-yet-consumed source keys.  Everything else is as in `ledgerStep`. -/
def specStepC7 (srcm : List (List Char × Nat)) (fuzzy : Option FuzzyFn)
    (removals : Bool) (is_video : Bool) (st : LedgerState) (p : Nat)
    (kl : List Char × List Char) : LedgerState :=
  let k := kl.1
  let l := kl.2
  let st :=
    { st with
      dup := if is_video ∧ (dictLookup srcm k).isSome then bumpDup k st.dup else st.dup }
  match dictLookup srcm k with
  | some s =>
    { st with
      rows := st.rows ++ [⟨some s, some p, offsetStat p s, l, k⟩],
      seen := insertSeen st.seen k,
      stats :=
        { st.stats with
          up := st.stats.up + (if 0 < (p : Int) - (s : Int) then 1 else 0),
          down := st.stats.down + (if (p : Int) - (s : Int) < 0 then 1 else 0) } }
  | none =>
    let hit : Option (Nat × List Char) :=
      match fuzzy with
      | none => none
      | some f =>
        match f k ((dictKeys srcm).filter (fun c => ¬ memSeen st.seen c)) with
        | none => none
        | some (cand, score) =>
          if THRESH ≤ score ∧ ¬ memSeen st.seen cand then
            match dictLookup srcm cand with
            | some s => some (s, cand)
            | none => none
          else none
    match hit with
    | some (s, cand) =>
      { st with
        rows := st.rows ++ [⟨some s, some p, Stat.approx, l, cand⟩],
        seen := insertSeen st.seen cand }
    | none =>
      if removals then
        { st with
          rows := st.rows ++ [⟨none, some p, Stat.removed, l, k⟩],
          stats := { st.stats with remove := st.stats.remove + 1 } }
      else st

/-- Modelled from the spec: the target loop over `specStepC7`. -/
def specLoopC7 (srcm : List (List Char × Nat)) (fuzzy : Option FuzzyFn)
    (removals : Bool) (is_video : Bool) :
    LedgerState → Nat → List (List Char × List Char) → LedgerState
  | st, _, [] => st
  | st, p, kl :: rest =>
    specLoopC7 srcm fuzzy removals is_video
      (specStepC7 srcm fuzzy removals is_video st p kl) (p + 1) rest

/-- Modelled from the spec: `ledger` with the claimed unconsumed-keys fuzzy
query of §4.4 step 2b. -/
def specLedgerC7 (src : List SrcEntry) (items : List (List Char × List Char))
    (is_video : Bool) (mode : List Char) (fuzzy : Option FuzzyFn) :
    List SimpleRow × Stats :=
  let st :=
    addPhase src
      (specLoopC7 (srcMapOf src) fuzzy (mode ≠ ("audio-only").toList) is_video
        initState 1 items)
  let simple :=
    if is_video then collapseRows st.dup st.rows []
    else st.rows.map (fun r => ⟨r.src, r.pos, r.stat, r.label⟩)
  (sortRows simple, st.stats)

/-- A character allowed in a canonical key: lower-case ASCII letter, ASCII
digit, or the single space. -/
def goodChar (c : Char) : Bool := isLowerAZ c || isDigitC c || decide (c.toNat = 32)

/-- No two adjacent whitespace characters. -/
def noTwoSpaces : List Char → Bool
  | a :: b :: r => (!(isPySpace a && isPySpace b)) && noTwoSpaces (b :: r)
  | _ => true

/-- The first character, if any, is not whitespace. -/
def headNotSpace : List Char → Bool
  | [] => true
  | c :: _ => ! isPySpace c

/-- The last character, if any, does not satisfy `p`. -/
def lastNotP (p : Char → Bool) : List Char → Bool
  | [] => true
  | [c] => ! p c
  | _ :: c :: r => lastNotP p (c :: r)

/-- Some variant keyword matches case-insensitively at the head of `s`. -/
def kwFits (s : List Char) : Bool := variantKeywords.any fun kw => ciStarts kw s

/-- Some variant keyword occurs (case-insensitively) somewhere inside `s`. -/
def containsKwIn : List Char → Bool
  | [] => false
  | c :: r => kwFits (c :: r) || containsKwIn r

/-- A tag-body character that keeps the tag scanner simple: not a closing
bracket and not a newline. -/
def brFree (c : Char) : Bool := !isCloseBr c && !(decide (c = '\n'))

/-! ### Character-level lemmas -/

theorem bool_eq_false {b : Bool} (h : ¬ b = true) : b = false := by
  cases b
  · rfl
  · exact absurd rfl h

theorem pyLower_toNat (c : Char) :
    (pyLower c).toNat = if 65 ≤ c.toNat ∧ c.toNat ≤ 90 then c.toNat + 32 else c.toNat := by
  unfold pyLower
  split
  · rename_i h
    have hv : (c.toNat + 32).isValidChar := Or.inl (by omega)
    unfold Char.ofNat
    rw [dif_pos hv]
    rfl
  · rfl

theorem isUpperAZ_pyLower (c : Char) : isUpperAZ (pyLower c) = false := by
  have h := pyLower_toNat c
  rw [isUpperAZ, decide_eq_false_iff_not]
  by_cases hc : 65 ≤ c.toNat ∧ c.toNat ≤ 90
  · rw [if_pos hc] at h
    omega
  · rw [if_neg hc] at h
    omega

theorem pyLower_of_goodChar (c : Char) (h : goodChar c = true) : pyLower c = c := by
  unfold pyLower
  rw [if_neg]
  simp only [goodChar, isLowerAZ, isDigitC, Bool.or_eq_true, decide_eq_true_eq] at h
  omega

theorem goodChar_of_word (c : Char) (hw : isWordChar c = true) (hu : isUpperAZ c = false) :
    goodChar c = true := by
  simp only [isWordChar, isDigitC, isUpperAZ, isLowerAZ, Bool.or_eq_true,
    decide_eq_true_eq, decide_eq_false_iff_not] at hw hu
  simp only [goodChar, isLowerAZ, isDigitC, Bool.or_eq_true, decide_eq_true_eq]
  omega

theorem goodChar_space : goodChar ' ' = true := by decide

theorem not_pySpace_of_word (c : Char) (hw : isWordChar c = true) : isPySpace c = false := by
  simp only [isWordChar, isDigitC, isUpperAZ, isLowerAZ, Bool.or_eq_true,
    decide_eq_true_eq] at hw
  simp only [isPySpace, decide_eq_false_iff_not]
  omega

theorem pySpace_space : isPySpace ' ' = true := by decide

/-! ### `strReplace` lemmas -/

theorem mem_srAux (bad good : List Char) :
    ∀ (f : Nat) (s : List Char) (c : Char), c ∈ srAux bad good f s → c ∈ s ∨ c ∈ good := by
  intro f
  induction f with
  | zero => intro s c h; exact Or.inl h
  | succ f ih =>
    intro s c h
    cases s with
    | nil => simp [srAux] at h
    | cons a rest =>
      rw [srAux] at h
      split at h
      · rcases List.mem_append.mp h with h | h
        · exact Or.inr h
        · rcases ih _ _ h with h | h
          · exact Or.inl (List.mem_cons_of_mem _ (List.drop_subset _ _ h))
          · exact Or.inr h
      · rcases List.mem_cons.mp h with h | h
        · exact Or.inl (h ▸ List.mem_cons_self _ _)
        · rcases ih _ _ h with h | h
          · exact Or.inl (List.mem_cons_of_mem _ h)
          · exact Or.inr h

theorem srAux_id (bad good : List Char) :
    ∀ (f : Nat) (s : List Char), occursWithin bad s = false → srAux bad good f s = s := by
  intro f
  induction f with
  | zero => intro s _; rfl
  | succ f ih =>
    intro s hocc
    cases s with
    | nil => rfl
    | cons c rest =>
      rw [occursWithin, Bool.or_eq_false_iff] at hocc
      have hc : ¬(bad ≠ [] ∧ starts bad (c :: rest) = true) := by
        intro hcon
        rw [hocc.1] at hcon
        exact Bool.false_ne_true hcon.2
      rw [srAux, if_neg hc, ih _ hocc.2]

theorem mem_applyOverrides (s : List Char) (c : Char) (h : c ∈ applyOverrides s) :
    c ∈ s ∨ isUpperAZ c = false := by
  have key : ∀ (ps : List (List Char × List Char)) (s : List Char) (c : Char),
      (∀ pr ∈ ps, ∀ d ∈ pr.2, isUpperAZ d = false) →
      c ∈ ps.foldl (fun t p => strReplace p.1 p.2 t) s → c ∈ s ∨ isUpperAZ c = false := by
    intro ps
    induction ps with
    | nil => intro s c _ h; exact Or.inl h
    | cons p rest ih =>
      intro s c hg h
      rw [List.foldl_cons] at h
      rcases ih _ _ (fun pr hpr => hg pr (List.mem_cons_of_mem _ hpr)) h with h | h
      · rcases mem_srAux _ _ _ _ _ h with h | h
        · exact Or.inl h
        · exact Or.inr (hg p (List.mem_cons_self _ _) _ h)
      · exact Or.inr h
  refine key OVERRIDES s c ?_ h
  decide

theorem applyOverrides_id (s : List Char)
    (h : ∀ pr ∈ OVERRIDES, occursWithin pr.1 s = false) : applyOverrides s = s := by
  have key : ∀ (ps : List (List Char × List Char)) (s : List Char),
      (∀ pr ∈ ps, occursWithin pr.1 s = false) →
      ps.foldl (fun t p => strReplace p.1 p.2 t) s = s := by
    intro ps
    induction ps with
    | nil => intro s _; rfl
    | cons p rest ih =>
      intro s hh
      rw [List.foldl_cons, strReplace, srAux_id _ _ _ _ (hh p (List.mem_cons_self _ _))]
      exact ih _ (fun pr hpr => hh pr (List.mem_cons_of_mem _ hpr))
  exact key OVERRIDES s h

/-! ### `canonSub` lemmas -/

theorem mem_canonSubAux :
    ∀ (f : Nat) (s : List Char), s.length ≤ f → ∀ c ∈ canonSubAux f s,
      c = ' ' ∨ (c ∈ s ∧ (isWordChar c || isPySpace c) = true) := by
  intro f
  induction f with
  | zero =>
    intro s hf c hc
    have : s = [] := List.eq_nil_of_length_eq_zero (Nat.le_zero.mp hf)
    subst this
    simp [canonSubAux] at hc
  | succ f ih =>
    intro s hf c hc
    cases s with
    | nil => simp [canonSubAux] at hc
    | cons a rest =>
      have hrest : rest.length ≤ f := by
        simp only [List.length_cons] at hf
        omega
      rw [canonSubAux] at hc
      split at hc
      · rcases List.mem_cons.mp hc with h | h
        · exact Or.inl h
        · have hdrop : List.drop 1 (rest.dropWhile fun d => d ≠ ')') ⊆ rest :=
            fun x hx =>
              (List.dropWhile_sublist _).subset (List.drop_subset _ _ hx)
          have hlen : (List.drop 1 (rest.dropWhile fun d => d ≠ ')')).length ≤ f := by
            have h1 := (List.dropWhile_sublist (l := rest) (fun d => d ≠ ')')).length_le
            have h2 := List.length_drop 1 (rest.dropWhile fun d => d ≠ ')')
            omega
          rcases ih _ hlen c h with h | ⟨h1, h2⟩
          · exact Or.inl h
          · exact Or.inr ⟨List.mem_cons_of_mem _ (hdrop h1), h2⟩
      · split at hc
        · rcases List.mem_cons.mp hc with h | h
          · exact Or.inl h
          · have hdrop : List.drop 1 (rest.dropWhile fun d => d ≠ ']') ⊆ rest :=
              fun x hx =>
                (List.dropWhile_sublist _).subset (List.drop_subset _ _ hx)
            have hlen : (List.drop 1 (rest.dropWhile fun d => d ≠ ']')).length ≤ f := by
              have h1 := (List.dropWhile_sublist (l := rest) (fun d => d ≠ ']')).length_le
              have h2 := List.length_drop 1 (rest.dropWhile fun d => d ≠ ']')
              omega
            rcases ih _ hlen c h with h | ⟨h1, h2⟩
            · exact Or.inl h
            · exact Or.inr ⟨List.mem_cons_of_mem _ (hdrop h1), h2⟩
        · split at hc
          · rename_i hword
            rcases List.mem_cons.mp hc with h | h
            · exact Or.inr ⟨h ▸ List.mem_cons_self _ _, h ▸ hword⟩
            · rcases ih _ hrest c h with h | ⟨h1, h2⟩
              · exact Or.inl h
              · exact Or.inr ⟨List.mem_cons_of_mem _ h1, h2⟩
          · rcases List.mem_cons.mp hc with h | h
            · exact Or.inl h
            · rcases ih _ hrest c h with h | ⟨h1, h2⟩
              · exact Or.inl h
              · exact Or.inr ⟨List.mem_cons_of_mem _ h1, h2⟩

theorem canonSubAux_id :
    ∀ (f : Nat) (s : List Char),
      (∀ c ∈ s, (isWordChar c || decide (c.toNat = 32)) = true) → canonSubAux f s = s := by
  intro f
  induction f with
  | zero => intro s _; rfl
  | succ f ih =>
    intro s hs
    cases s with
    | nil => rfl
    | cons a rest =>
      have ha := hs a (List.mem_cons_self _ _)
      have hrest := fun c hc => hs c (List.mem_cons_of_mem _ hc)
      have hnotpar : ¬(a = '(' ∧ rest.contains ')' = true) := by
        intro h
        rw [h.1] at ha
        exact absurd ha (by decide)
      have hnotbr : ¬(a = '[' ∧ rest.contains ']' = true) := by
        intro h
        rw [h.1] at ha
        exact absurd ha (by decide)
      have hkeep : (isWordChar a || isPySpace a) = true := by
        rcases Bool.or_eq_true _ _ |>.mp ha with h | h
        · simp [h]
        · have : isPySpace a = true := by
            simp only [isPySpace, decide_eq_true_eq]
            simp only [decide_eq_true_eq] at h
            omega
          simp [this]
      rw [canonSubAux, if_neg hnotpar, if_neg hnotbr, if_pos hkeep, ih _ hrest]

/-! ### `collapseWs` lemmas -/

theorem mem_collapseWsAux :
    ∀ (s : List Char) (b : Bool) (c : Char), c ∈ collapseWsAux b s →
      c = ' ' ∨ (c ∈ s ∧ isPySpace c = false) := by
  intro s
  induction s with
  | nil => intro b c h; simp [collapseWsAux] at h
  | cons a rest ih =>
    intro b c h
    rw [collapseWsAux] at h
    split at h
    · split at h
      · rcases ih _ _ h with h | ⟨h1, h2⟩
        · exact Or.inl h
        · exact Or.inr ⟨List.mem_cons_of_mem _ h1, h2⟩
      · rcases List.mem_cons.mp h with h | h
        · exact Or.inl h
        · rcases ih _ _ h with h | ⟨h1, h2⟩
          · exact Or.inl h
          · exact Or.inr ⟨List.mem_cons_of_mem _ h1, h2⟩
    · rename_i hsp
      rcases List.mem_cons.mp h with h | h
      · subst h
        exact Or.inr ⟨List.mem_cons_self _ _, bool_eq_false hsp⟩
      · rcases ih _ _ h with h | ⟨h1, h2⟩
        · exact Or.inl h
        · exact Or.inr ⟨List.mem_cons_of_mem _ h1, h2⟩

theorem headNotSpace_collapseWsAux_true :
    ∀ (s : List Char), headNotSpace (collapseWsAux true s) = true := by
  intro s
  induction s with
  | nil => rfl
  | cons a rest ih =>
    rw [collapseWsAux]
    split
    · exact ih
    · rename_i hsp
      simp [headNotSpace, bool_eq_false hsp]

theorem noTwoSpaces_cons_of (a : Char) (l : List Char)
    (h1 : headNotSpace l = true ∨ isPySpace a = false) (h2 : noTwoSpaces l = true) :
    noTwoSpaces (a :: l) = true := by
  cases l with
  | nil => rfl
  | cons b r =>
    rw [noTwoSpaces, Bool.and_eq_true]
    refine ⟨?_, h2⟩
    rcases h1 with h | h
    · rw [headNotSpace] at h
      have hb : isPySpace b = false := by simpa using h
      simp [hb]
    · simp [h]

theorem noTwoSpaces_collapseWsAux :
    ∀ (s : List Char) (b : Bool), noTwoSpaces (collapseWsAux b s) = true := by
  intro s
  induction s with
  | nil => intro b; rfl
  | cons a rest ih =>
    intro b
    rw [collapseWsAux]
    split
    · split
      · exact ih true
      · exact noTwoSpaces_cons_of _ _ (Or.inl (headNotSpace_collapseWsAux_true rest)) (ih true)
    · rename_i hsp
      exact noTwoSpaces_cons_of _ _ (Or.inr (Bool.of_not_eq_true hsp)) (ih false)

theorem collapseWsAux_id :
    ∀ (l : List Char), noTwoSpaces l = true →
      (∀ c ∈ l, isPySpace c = false ∨ c = ' ') →
      (collapseWsAux false l = l ∧ (headNotSpace l = true → collapseWsAux true l = l)) := by
  intro l
  induction l with
  | nil => intro _ _; exact ⟨rfl, fun _ => rfl⟩
  | cons a rest ih =>
    intro hnt hsp
    have hrest_nt : noTwoSpaces rest = true := by
      cases rest with
      | nil => rfl
      | cons b r =>
        rw [noTwoSpaces, Bool.and_eq_true] at hnt
        exact hnt.2
    have hrest_sp := fun c hc => hsp c (List.mem_cons_of_mem _ hc)
    rcases ih hrest_nt hrest_sp with ⟨ihf, iht⟩
    by_cases ha : isPySpace a = true
    · have haq : a = ' ' := by
        rcases hsp a (List.mem_cons_self _ _) with h | h
        · rw [ha] at h; exact absurd h (by simp)
        · exact h
      have hhr : headNotSpace rest = true := by
        cases rest with
        | nil => rfl
        | cons b r =>
          rw [noTwoSpaces, Bool.and_eq_true] at hnt
          have hab : isPySpace a = false ∨ isPySpace b = false := by simpa using hnt.1
          rw [headNotSpace]
          rcases hab with h | h
          · rw [ha] at h
            exact absurd h (by simp)
          · simp [h]
      constructor
      · rw [collapseWsAux, if_pos ha, if_neg (by simp), iht hhr, haq]
      · intro hh
        rw [headNotSpace, ha] at hh
        exact absurd hh (by simp)
    · have ha' := bool_eq_false ha
      constructor
      · rw [collapseWsAux, if_neg (by simp [ha']), ihf]
      · intro _
        rw [collapseWsAux, if_neg (by simp [ha']), ihf]

/-! ### strip lemmas -/

theorem mem_dropTrailingP (p : Char → Bool) :
    ∀ (l : List Char) (c : Char), c ∈ dropTrailingP p l → c ∈ l := by
  intro l
  induction l with
  | nil => intro c h; simp [dropTrailingP] at h
  | cons a rest ih =>
    intro c h
    rw [dropTrailingP] at h
    split at h
    · rename_i heq
      split at h
      · simp at h
      · rcases List.mem_singleton.mp h with h
        exact h ▸ List.mem_cons_self _ _
    · rename_i d ds heq
      rcases List.mem_cons.mp h with h | h
      · exact h ▸ List.mem_cons_self _ _
      · exact List.mem_cons_of_mem _ (ih c (heq ▸ h))

theorem head_dropTrailingP (p : Char → Bool) :
    ∀ (l : List Char), dropTrailingP p l = [] ∨ (dropTrailingP p l).head? = l.head? := by
  intro l
  induction l with
  | nil => exact Or.inl rfl
  | cons a rest _ =>
    rw [dropTrailingP]
    split
    · split
      · exact Or.inl rfl
      · exact Or.inr rfl
    · exact Or.inr rfl

theorem lastNotP_dropTrailingP (p : Char → Bool) :
    ∀ (l : List Char), lastNotP p (dropTrailingP p l) = true := by
  intro l
  induction l with
  | nil => rfl
  | cons a rest ih =>
    rw [dropTrailingP]
    split
    · rename_i heq
      split
      · rfl
      · rename_i hp
        simp [lastNotP, hp]
    · rename_i d ds heq
      rw [heq] at ih
      rw [lastNotP]
      exact ih

theorem noTwoSpaces_dropTrailingP :
    ∀ (l : List Char), noTwoSpaces l = true → noTwoSpaces (dropTrailingP isPySpace l) = true := by
  intro l
  induction l with
  | nil => intro _; rfl
  | cons a rest ih =>
    intro hnt
    have hrest_nt : noTwoSpaces rest = true := by
      cases rest with
      | nil => rfl
      | cons b r =>
        rw [noTwoSpaces, Bool.and_eq_true] at hnt
        exact hnt.2
    rw [dropTrailingP]
    split
    · split
      · rfl
      · rfl
    · rename_i d ds heq
      refine noTwoSpaces_cons_of _ _ ?_ (heq ▸ ih hrest_nt)
      cases rest with
      | nil => simp [dropTrailingP] at heq
      | cons b r =>
        rcases head_dropTrailingP isPySpace (b :: r) with h | h
        · rw [h] at heq; exact absurd heq (by simp)
        · rw [heq] at h
          simp only [List.head?_cons, Option.some.injEq] at h
          rw [noTwoSpaces, Bool.and_eq_true] at hnt
          have hab : isPySpace a = false ∨ isPySpace b = false := by simpa using hnt.1
          rcases hab with hh | hh
          · exact Or.inr hh
          · left
            rw [headNotSpace, h, hh]
            rfl

theorem char_eq_space (c : Char) (h : c.toNat = 32) : c = ' ' := by
  apply Char.ext
  apply UInt32.ext
  simpa [Char.toNat] using h

theorem noTwoSpaces_tail (a : Char) (l : List Char) (h : noTwoSpaces (a :: l) = true) :
    noTwoSpaces l = true := by
  cases l with
  | nil => rfl
  | cons b r =>
    rw [noTwoSpaces, Bool.and_eq_true] at h
    exact h.2

theorem noTwoSpaces_dropWhile (p : Char → Bool) :
    ∀ (l : List Char), noTwoSpaces l = true → noTwoSpaces (l.dropWhile p) = true := by
  intro l
  induction l with
  | nil => intro _; rfl
  | cons a rest ih =>
    intro h
    rw [List.dropWhile_cons]
    split
    · exact ih (noTwoSpaces_tail _ _ h)
    · exact h

theorem headNotSpace_dropWhile :
    ∀ (l : List Char), headNotSpace (l.dropWhile isPySpace) = true := by
  intro l
  induction l with
  | nil => rfl
  | cons a rest ih =>
    rw [List.dropWhile_cons]
    split
    · exact ih
    · rename_i hsp
      simp only [headNotSpace]
      simp [bool_eq_false hsp]

theorem headNotSpace_of_head? (l l' : List Char) (h : l.head? = l'.head?)
    (h' : headNotSpace l' = true) : headNotSpace l = true := by
  cases l with
  | nil => rfl
  | cons a r =>
    cases l' with
    | nil => simp at h
    | cons b r' =>
      simp only [List.head?_cons, Option.some.injEq] at h
      rw [headNotSpace, h]
      rw [headNotSpace] at h'
      exact h'

theorem headNotSpace_pyStrip (l : List Char) : headNotSpace (pyStrip l) = true := by
  unfold pyStrip
  rcases head_dropTrailingP isPySpace (l.dropWhile isPySpace) with h | h
  · rw [h]; rfl
  · exact headNotSpace_of_head? _ _ h (headNotSpace_dropWhile l)

theorem dropTrailingP_id (p : Char → Bool) :
    ∀ (l : List Char), lastNotP p l = true → dropTrailingP p l = l := by
  intro l
  induction l with
  | nil => intro _; rfl
  | cons a rest ih =>
    intro h
    cases rest with
    | nil =>
      rw [lastNotP] at h
      rw [dropTrailingP]
      simp only [dropTrailingP]
      rw [if_neg (by simp_all)]
    | cons b r =>
      rw [lastNotP] at h
      rw [dropTrailingP, ih h]

theorem pyStrip_id (l : List Char) (hh : headNotSpace l = true)
    (hl : lastNotP isPySpace l = true) : pyStrip l = l := by
  unfold pyStrip
  have hdw : l.dropWhile isPySpace = l := by
    cases l with
    | nil => rfl
    | cons a r =>
      rw [headNotSpace] at hh
      rw [List.dropWhile_cons, if_neg (by simp_all)]
  rw [hdw, dropTrailingP_id _ _ hl]

theorem map_id_of {α : Type} (f : α → α) :
    ∀ (l : List α), (∀ c ∈ l, f c = c) → l.map f = l := by
  intro l
  induction l with
  | nil => intro _; rfl
  | cons a rest ih =>
    intro h
    rw [List.map_cons, h a (List.mem_cons_self _ _), ih (fun c hc => h c (List.mem_cons_of_mem _ hc))]

/-- Structural facts about every canonical key: only lower-case ASCII
letters, digits and spaces; no two adjacent spaces; no leading or trailing
space. -/
theorem canonicalForm (tr : List Char → List Char) (raw : List Char) :
    (∀ c ∈ canonical tr raw, goodChar c = true) ∧
    noTwoSpaces (canonical tr raw) = true ∧
    headNotSpace (canonical tr raw) = true ∧
    lastNotP isPySpace (canonical tr raw) = true := by
  unfold canonical
  refine ⟨?_, ?_, headNotSpace_pyStrip _, lastNotP_dropTrailingP _ _⟩
  · intro c hc
    have hv : c ∈ collapseWs (canonSub (applyOverrides ((tr raw).map pyLower))) := by
      unfold pyStrip at hc
      exact (List.dropWhile_sublist _).subset (mem_dropTrailingP _ _ _ hc)
    rcases mem_collapseWsAux _ _ _ hv with h | ⟨h1, h2⟩
    · rw [h]; decide
    · rcases mem_canonSubAux _ _ (Nat.le_refl _) _ h1 with h | ⟨h3, h4⟩
      · rw [h]; decide
      · have hword : isWordChar c = true := by
          rcases Bool.or_eq_true _ _ |>.mp h4 with h | h
          · exact h
          · rw [h] at h2; exact absurd h2 (by simp)
        have hupper : isUpperAZ c = false := by
          rcases mem_applyOverrides _ _ h3 with h | h
          · rcases List.mem_map.mp h with ⟨d, _, hd⟩
            rw [← hd]
            exact isUpperAZ_pyLower d
          · exact h
        exact goodChar_of_word c hword hupper
  · apply noTwoSpaces_dropTrailingP
    apply noTwoSpaces_dropWhile
    exact noTwoSpaces_collapseWsAux _ _

/-- Canonical keys are fixed by a second canonicalisation as long as no
override pattern occurs in them (and the transliteration fixes them, which
holds both for the identity fallback and for the real `unidecode`, which is
the identity on ASCII). -/
theorem canonical_fixed (tr : List Char → List Char) (y : List Char)
    (h1 : tr y = y)
    (h2 : ∀ pr ∈ OVERRIDES, occursWithin pr.1 y = false)
    (hg : ∀ c ∈ y, goodChar c = true)
    (hnt : noTwoSpaces y = true)
    (hh : headNotSpace y = true)
    (hl : lastNotP isPySpace y = true) :
    canonical tr y = y := by
  unfold canonical
  rw [h1]
  rw [map_id_of _ _ (fun c hc => pyLower_of_goodChar c (hg c hc))]
  rw [applyOverrides_id _ h2]
  rw [show canonSub y = y from
    canonSubAux_id _ _ (fun c hc => by
      have := hg c hc
      simp only [goodChar, Bool.or_eq_true] at this
      simp only [isWordChar, Bool.or_eq_true]
      tauto)]
  rw [show collapseWs y = y from
    (collapseWsAux_id _ hnt (fun c hc => by
      have := hg c hc
      simp only [goodChar, Bool.or_eq_true, decide_eq_true_eq] at this
      rcases this with h | h
      · left
        apply not_pySpace_of_word
        simp only [isWordChar, Bool.or_eq_true]
        tauto
      · exact Or.inr (char_eq_space c h))).1]
  exact pyStrip_id _ hh hl

theorem canonical_stable (tr : List Char → List Char) (x : List Char)
    (h1 : tr (canonical tr x) = canonical tr x)
    (h2 : ∀ pr ∈ OVERRIDES, occursWithin pr.1 (canonical tr x) = false) :
    canonical tr (canonical tr x) = canonical tr x := by
  obtain ⟨hg, hnt, hh, hl⟩ := canonicalForm tr x
  exact canonical_fixed tr _ h1 h2 hg hnt hh hl

/-! ### Ledger lemmas -/

theorem dictLookup_dictInsert (k : List Char) (v : Nat) :
    ∀ (m : List (List Char × Nat)) (q : List Char),
      dictLookup (dictInsert k v m) q = if q = k then some v else dictLookup m q := by
  intro m
  induction m with
  | nil =>
    intro q
    by_cases h : q = k
    · subst h
      simp [dictInsert, dictLookup, List.find?]
    · have hk : decide (k = q) = false := decide_eq_false (fun hc => h hc.symm)
      simp [dictInsert, dictLookup, List.find?, hk, h]
  | cons e rest ih =>
    intro q
    rw [dictInsert]
    split
    · rename_i he
      by_cases h : q = k
      · subst h
        simp [dictLookup, List.find?]
      · have hk : decide (k = q) = false := decide_eq_false (fun hc => h hc.symm)
        have he1 : decide (e.1 = q) = false :=
          decide_eq_false (fun hc => h (hc.symm.trans he))
        simp [dictLookup, List.find?, hk, he1, h]
    · rename_i he
      by_cases h : q = e.1
      · have hqk : ¬ q = k := fun hc => he (h.symm.trans hc)
        have he1 : decide (e.1 = q) = true := decide_eq_true h.symm
        simp [dictLookup, List.find?, he1, hqk]
      · have he1 : decide (e.1 = q) = false := decide_eq_false (fun hc => h hc.symm)
        have lhs : dictLookup (e :: dictInsert k v rest) q = dictLookup (dictInsert k v rest) q := by
          simp [dictLookup, List.find?, he1]
        have rhs : dictLookup (e :: rest) q = dictLookup rest q := by
          simp [dictLookup, List.find?, he1]
        rw [lhs, ih q, rhs]

theorem dictLookup_srcMapOf (src : List SrcEntry) (q : List Char) :
    dictLookup (srcMapOf src) q =
      match src.reverse.find? (fun t => t.canon = q) with
      | some t => some t.idx
      | none => none := by
  have key : ∀ (src : List SrcEntry) (m : List (List Char × Nat)) (q : List Char),
      dictLookup (src.foldl (fun m t => dictInsert t.canon t.idx m) m) q =
        match src.reverse.find? (fun t => t.canon = q) with
        | some t => some t.idx
        | none => dictLookup m q := by
    intro src
    induction src with
    | nil => intro m q; rfl
    | cons t rest ih =>
      intro m q
      rw [List.foldl_cons, ih, List.reverse_cons, List.find?_append]
      cases hfind : rest.reverse.find? (fun u => decide (u.canon = q)) with
      | some u => rfl
      | none =>
        by_cases hq : t.canon = q
        · have hq1 : decide (t.canon = q) = true := decide_eq_true hq
          have hq2 : q = t.canon := hq.symm
          simp [Option.or, List.find?, hq1, dictLookup_dictInsert, hq2]
        · have hq1 : decide (t.canon = q) = false := decide_eq_false hq
          have hq2 : ¬ q = t.canon := fun hc => hq hc.symm
          simp [Option.or, List.find?, hq1, dictLookup_dictInsert, hq2]
  rw [srcMapOf, key]
  cases src.reverse.find? (fun t => t.canon = q) with
  | some t => rfl
  | none => rfl

theorem ledgerStep_exact (srcm : List (List Char × Nat)) (fz : Option FuzzyFn)
    (rm iv : Bool) (st : LedgerState) (p : Nat) (k l : List Char) (s : Nat)
    (h : dictLookup srcm k = some s) :
    (ledgerStep srcm fz rm iv st p (k, l)).rows =
      st.rows ++ [⟨some s, some p, offsetStat p s, l, k⟩] ∧
    (ledgerStep srcm fz rm iv st p (k, l)).seen = insertSeen st.seen k := by
  simp only [ledgerStep, h]
  constructor <;> trivial

theorem ledgerStep_approx (srcm : List (List Char × Nat)) (f : FuzzyFn)
    (rm iv : Bool) (st : LedgerState) (p : Nat) (k l cand : List Char) (sc s : Nat)
    (h0 : dictLookup srcm k = none)
    (hf : f k (dictKeys srcm) = some (cand, sc))
    (hsc : THRESH ≤ sc)
    (hseen : memSeen st.seen cand = false)
    (hcand : dictLookup srcm cand = some s) :
    (ledgerStep srcm (some f) rm iv st p (k, l)).rows =
      st.rows ++ [⟨some s, some p, Stat.approx, l, cand⟩] ∧
    (ledgerStep srcm (some f) rm iv st p (k, l)).seen = insertSeen st.seen cand := by
  have hcond : THRESH ≤ sc ∧ ¬ memSeen st.seen cand = true := ⟨hsc, by simp [hseen]⟩
  simp only [ledgerStep, h0, hf, if_pos hcond, hcand]
  constructor <;> trivial

theorem ledgerStep_nofuzzy (srcm : List (List Char × Nat))
    (rm iv : Bool) (st : LedgerState) (p : Nat) (k l : List Char)
    (h0 : dictLookup srcm k = none) :
    (ledgerStep srcm none rm iv st p (k, l)).rows =
      st.rows ++ (if rm then [⟨none, some p, Stat.removed, l, k⟩] else []) ∧
    (ledgerStep srcm none rm iv st p (k, l)).seen = st.seen := by
  simp only [ledgerStep, h0]
  by_cases hrm : rm = true
  · rw [if_pos hrm, if_pos hrm]
    constructor <;> simp
  · rw [if_neg hrm, if_neg hrm]
    constructor <;> simp

theorem offsetStat_cases (p s : Nat) :
    ((p : Int) - s = 0 ∧ offsetStat p s = Stat.unchanged) ∨
    (0 < (p : Int) - s ∧ offsetStat p s = Stat.up ((p : Int) - (s : Int)).toNat) ∨
    ((p : Int) - s < 0 ∧ offsetStat p s = Stat.down (-((p : Int) - (s : Int))).toNat) := by
  unfold offsetStat
  by_cases h0 : (p : Int) - s = 0
  · exact Or.inl ⟨h0, by rw [if_pos h0]⟩
  · by_cases hpos : 0 < (p : Int) - s
    · exact Or.inr (Or.inl ⟨hpos, by rw [if_neg h0, if_pos hpos]⟩)
    · exact Or.inr (Or.inr ⟨by omega, by rw [if_neg h0, if_neg hpos]⟩)

theorem offsetStat_ne_approx (p s : Nat) : offsetStat p s ≠ Stat.approx := by
  rcases offsetStat_cases p s with ⟨_, h⟩ | ⟨_, h⟩ | ⟨_, h⟩ <;> simp [h]

theorem offsetStat_ne_added (p s : Nat) : offsetStat p s ≠ Stat.added := by
  rcases offsetStat_cases p s with ⟨_, h⟩ | ⟨_, h⟩ | ⟨_, h⟩ <;> simp [h]

/-- The four possible effects of one target-loop step: exact match,
approximate match, removed row, or silent skip. -/
theorem ledgerStep_shape (srcm : List (List Char × Nat)) (fz : Option FuzzyFn)
    (rm iv : Bool) (st : LedgerState) (p : Nat) (kl : List Char × List Char) :
    (∃ s, dictLookup srcm kl.1 = some s ∧
      (ledgerStep srcm fz rm iv st p kl).rows =
        st.rows ++ [⟨some s, some p, offsetStat p s, kl.2, kl.1⟩] ∧
      (ledgerStep srcm fz rm iv st p kl).seen = insertSeen st.seen kl.1 ∧
      (ledgerStep srcm fz rm iv st p kl).stats =
        { st.stats with
          up := st.stats.up + (if 0 < (p : Int) - (s : Int) then 1 else 0),
          down := st.stats.down + (if (p : Int) - (s : Int) < 0 then 1 else 0) }) ∨
    (∃ f s cand, fz = some f ∧ dictLookup srcm kl.1 = none ∧ dictLookup srcm cand = some s ∧
      (ledgerStep srcm fz rm iv st p kl).rows =
        st.rows ++ [⟨some s, some p, Stat.approx, kl.2, cand⟩] ∧
      (ledgerStep srcm fz rm iv st p kl).seen = insertSeen st.seen cand ∧
      (ledgerStep srcm fz rm iv st p kl).stats = st.stats) ∨
    (dictLookup srcm kl.1 = none ∧ rm = true ∧
      (ledgerStep srcm fz rm iv st p kl).rows =
        st.rows ++ [⟨none, some p, Stat.removed, kl.2, kl.1⟩] ∧
      (ledgerStep srcm fz rm iv st p kl).seen = st.seen ∧
      (ledgerStep srcm fz rm iv st p kl).stats =
        { st.stats with remove := st.stats.remove + 1 }) ∨
    ((ledgerStep srcm fz rm iv st p kl).rows = st.rows ∧
      (ledgerStep srcm fz rm iv st p kl).seen = st.seen ∧
      (ledgerStep srcm fz rm iv st p kl).stats = st.stats) := by
  cases hk : dictLookup srcm kl.1 with
  | some s =>
    refine Or.inl ⟨s, rfl, ?_⟩
    simp only [ledgerStep, hk]
    refine ⟨?_, ?_, ?_⟩ <;> trivial
  | none =>
    cases fz with
    | none =>
      by_cases hrm : rm = true
      · refine Or.inr (Or.inr (Or.inl ⟨rfl, hrm, ?_⟩))
        simp only [ledgerStep, hk, if_pos hrm]
        refine ⟨?_, ?_, ?_⟩ <;> trivial
      · refine Or.inr (Or.inr (Or.inr ?_))
        simp only [ledgerStep, hk, if_neg hrm]
        refine ⟨?_, ?_, ?_⟩ <;> trivial
    | some f =>
      cases hf : f kl.1 (dictKeys srcm) with
      | none =>
        by_cases hrm : rm = true
        · refine Or.inr (Or.inr (Or.inl ⟨rfl, hrm, ?_⟩))
          simp only [ledgerStep, hk, hf, if_pos hrm]
          refine ⟨?_, ?_, ?_⟩ <;> trivial
        · refine Or.inr (Or.inr (Or.inr ?_))
          simp only [ledgerStep, hk, hf, if_neg hrm]
          refine ⟨?_, ?_, ?_⟩ <;> trivial
      | some csc =>
        obtain ⟨cand, sc⟩ := csc
        by_cases hcond : THRESH ≤ sc ∧ ¬ memSeen st.seen cand = true
        · cases hc : dictLookup srcm cand with
          | some s =>
            refine Or.inr (Or.inl ⟨f, s, cand, rfl, rfl, hc, ?_⟩)
            simp only [ledgerStep, hk, hf, if_pos hcond, hc]
            refine ⟨?_, ?_, ?_⟩ <;> trivial
          | none =>
            by_cases hrm : rm = true
            · refine Or.inr (Or.inr (Or.inl ⟨rfl, hrm, ?_⟩))
              simp only [ledgerStep, hk, hf, if_pos hcond, hc, if_pos hrm]
              refine ⟨?_, ?_, ?_⟩ <;> trivial
            · refine Or.inr (Or.inr (Or.inr ?_))
              simp only [ledgerStep, hk, hf, if_pos hcond, hc, if_neg hrm]
              refine ⟨?_, ?_, ?_⟩ <;> trivial
        · by_cases hrm : rm = true
          · refine Or.inr (Or.inr (Or.inl ⟨rfl, hrm, ?_⟩))
            simp only [ledgerStep, hk, hf, if_neg hcond, if_pos hrm]
            refine ⟨?_, ?_, ?_⟩ <;> trivial
          · refine Or.inr (Or.inr (Or.inr ?_))
            simp only [ledgerStep, hk, hf, if_neg hcond, if_neg hrm]
            refine ⟨?_, ?_, ?_⟩ <;> trivial

theorem statsOfStats_snoc (L : List Stat) (x : Stat) :
    statsOfStats (L ++ [x]) =
      ⟨(statsOfStats L).add + (if x = Stat.added then 1 else 0),
       (statsOfStats L).remove + (if x = Stat.removed then 1 else 0),
       (statsOfStats L).up + (if (match x with | Stat.up _ => true | _ => false) = true then 1 else 0),
       (statsOfStats L).down + (if (match x with | Stat.down _ => true | _ => false) = true then 1 else 0)⟩ := by
  simp [statsOfStats, List.countP_append, List.countP_cons]

theorem ledgerStep_stats_inv (srcm : List (List Char × Nat)) (fz : Option FuzzyFn)
    (rm iv : Bool) (st : LedgerState) (p : Nat) (kl : List Char × List Char)
    (h : st.stats = statsOfStats (st.rows.map Row.stat)) :
    (ledgerStep srcm fz rm iv st p kl).stats =
      statsOfStats ((ledgerStep srcm fz rm iv st p kl).rows.map Row.stat) := by
  rcases ledgerStep_shape srcm fz rm iv st p kl with
    ⟨s, _, hr, _, hst⟩ | ⟨f, s, cand, _, _, _, hr, _, hst⟩ |
    ⟨_, _, hr, _, hst⟩ | ⟨hr, _, hst⟩
  · rw [hst, hr, List.map_append, List.map_singleton, statsOfStats_snoc, ← h]
    rcases offsetStat_cases p s with ⟨h0, hos⟩ | ⟨h0, hos⟩ | ⟨h0, hos⟩ <;>
      · rw [hos]
        simp only [Stats.mk.injEq]
        refine ⟨by simp, by simp, ?_, ?_⟩ <;> · split <;> split <;> simp_all <;> omega
  · rw [hst, hr, List.map_append, List.map_singleton, statsOfStats_snoc, ← h]
    simp
  · rw [hst, hr, List.map_append, List.map_singleton, statsOfStats_snoc, ← h]
    simp
  · rw [hst, hr, ← h]

theorem ledgerLoop_stats_inv (srcm : List (List Char × Nat)) (fz : Option FuzzyFn)
    (rm iv : Bool) :
    ∀ (items : List (List Char × List Char)) (st : LedgerState) (p : Nat),
      st.stats = statsOfStats (st.rows.map Row.stat) →
      (ledgerLoop srcm fz rm iv st p items).stats =
        statsOfStats ((ledgerLoop srcm fz rm iv st p items).rows.map Row.stat) := by
  intro items
  induction items with
  | nil => intro st p h; exact h
  | cons kl rest ih =>
    intro st p h
    rw [ledgerLoop]
    exact ih _ _ (ledgerStep_stats_inv srcm fz rm iv st p kl h)

theorem addPhase_stats_inv :
    ∀ (src : List SrcEntry) (st : LedgerState),
      st.stats = statsOfStats (st.rows.map Row.stat) →
      (addPhase src st).stats = statsOfStats ((addPhase src st).rows.map Row.stat) := by
  intro src
  induction src with
  | nil => intro st h; exact h
  | cons t rest ih =>
    intro st h
    rw [addPhase, List.foldl_cons]
    show (addPhase rest _).stats = statsOfStats ((addPhase rest _).rows.map Row.stat)
    apply ih
    split
    · exact h
    · rw [List.map_append, List.map_singleton, statsOfStats_snoc, ← h]
      simp

theorem ledgerState_stats (src : List SrcEntry) (items : List (List Char × List Char))
    (iv : Bool) (mode : List Char) (fz : Option FuzzyFn) :
    (ledgerState src items iv mode fz).stats =
      statsOfStats ((ledgerState src items iv mode fz).rows.map Row.stat) := by
  unfold ledgerState
  apply addPhase_stats_inv
  apply ledgerLoop_stats_inv
  rfl

theorem ledgerStep_lookup_inv (srcm : List (List Char × Nat)) (fz : Option FuzzyFn)
    (rm iv : Bool) (st : LedgerState) (p : Nat) (kl : List Char × List Char)
    (h : ∀ r ∈ st.rows, r.stat ≠ Stat.added → r.src = dictLookup srcm r.ck) :
    ∀ r ∈ (ledgerStep srcm fz rm iv st p kl).rows, r.stat ≠ Stat.added →
      r.src = dictLookup srcm r.ck := by
  rcases ledgerStep_shape srcm fz rm iv st p kl with
    ⟨s, hk, hr, _, _⟩ | ⟨f, s, cand, _, hk, hc, hr, _, _⟩ |
    ⟨hk, _, hr, _, _⟩ | ⟨hr, _, _⟩ <;> rw [hr]
  · intro r hmem hstat
    rcases List.mem_append.mp hmem with hm | hm
    · exact h r hm hstat
    · rcases List.mem_singleton.mp hm with rfl
      exact hk.symm
  · intro r hmem hstat
    rcases List.mem_append.mp hmem with hm | hm
    · exact h r hm hstat
    · rcases List.mem_singleton.mp hm with rfl
      exact hc.symm
  · intro r hmem hstat
    rcases List.mem_append.mp hmem with hm | hm
    · exact h r hm hstat
    · rcases List.mem_singleton.mp hm with rfl
      exact hk.symm
  · exact h

theorem ledgerLoop_lookup_inv (srcm : List (List Char × Nat)) (fz : Option FuzzyFn)
    (rm iv : Bool) :
    ∀ (items : List (List Char × List Char)) (st : LedgerState) (p : Nat),
      (∀ r ∈ st.rows, r.stat ≠ Stat.added → r.src = dictLookup srcm r.ck) →
      ∀ r ∈ (ledgerLoop srcm fz rm iv st p items).rows, r.stat ≠ Stat.added →
        r.src = dictLookup srcm r.ck := by
  intro items
  induction items with
  | nil => intro st p h; exact h
  | cons kl rest ih =>
    intro st p h
    rw [ledgerLoop]
    exact ih _ _ (ledgerStep_lookup_inv srcm fz rm iv st p kl h)

theorem addPhase_lookup_inv (srcm : List (List Char × Nat)) :
    ∀ (src : List SrcEntry) (st : LedgerState),
      (∀ r ∈ st.rows, r.stat ≠ Stat.added → r.src = dictLookup srcm r.ck) →
      ∀ r ∈ (addPhase src st).rows, r.stat ≠ Stat.added → r.src = dictLookup srcm r.ck := by
  intro src
  induction src with
  | nil => intro st h; exact h
  | cons t rest ih =>
    intro st h
    rw [addPhase, List.foldl_cons]
    show ∀ r ∈ (addPhase rest _).rows, _
    apply ih
    split
    · exact h
    · intro r hmem hstat
      rcases List.mem_append.mp hmem with hm | hm
      · exact h r hm hstat
      · rcases List.mem_singleton.mp hm with rfl
        exact absurd rfl hstat

/-- Every non-added row of a run carries exactly the source-map binding of
its canonical key (`none` for removed rows). -/
theorem ledgerState_lookup (src : List SrcEntry) (items : List (List Char × List Char))
    (iv : Bool) (mode : List Char) (fz : Option FuzzyFn) :
    ∀ r ∈ (ledgerState src items iv mode fz).rows, r.stat ≠ Stat.added →
      r.src = dictLookup (srcMapOf src) r.ck := by
  unfold ledgerState
  apply addPhase_lookup_inv
  apply ledgerLoop_lookup_inv
  intro r hmem
  simp [initState] at hmem

theorem ledgerStep_noapprox (srcm : List (List Char × Nat))
    (rm iv : Bool) (st : LedgerState) (p : Nat) (kl : List Char × List Char)
    (h : ∀ r ∈ st.rows, r.stat ≠ Stat.approx) :
    ∀ r ∈ (ledgerStep srcm none rm iv st p kl).rows, r.stat ≠ Stat.approx := by
  rcases ledgerStep_shape srcm none rm iv st p kl with
    ⟨s, _, hr, _, _⟩ | ⟨f, s, cand, hf, _⟩ |
    ⟨_, _, hr, _, _⟩ | ⟨hr, _, _⟩
  · rw [hr]
    intro r hmem
    rcases List.mem_append.mp hmem with hm | hm
    · exact h r hm
    · rcases List.mem_singleton.mp hm with rfl
      exact offsetStat_ne_approx p s
  · exact absurd hf (by simp)
  · rw [hr]
    intro r hmem
    rcases List.mem_append.mp hmem with hm | hm
    · exact h r hm
    · rcases List.mem_singleton.mp hm with rfl
      simp
  · rw [hr]
    exact h

theorem ledgerState_noapprox (src : List SrcEntry) (items : List (List Char × List Char))
    (iv : Bool) (mode : List Char) :
    ∀ r ∈ (ledgerState src items iv mode none).rows, r.stat ≠ Stat.approx := by
  unfold ledgerState
  have loop : ∀ (items : List (List Char × List Char)) (st : LedgerState) (p : Nat),
      (∀ r ∈ st.rows, r.stat ≠ Stat.approx) →
      ∀ r ∈ (ledgerLoop (srcMapOf src) none (mode ≠ ("audio-only").toList) iv st p items).rows,
        r.stat ≠ Stat.approx := by
    intro items
    induction items with
    | nil => intro st p h; exact h
    | cons kl rest ih =>
      intro st p h
      rw [ledgerLoop]
      exact ih _ _ (ledgerStep_noapprox _ _ _ _ _ _ h)
  have add : ∀ (src₂ : List SrcEntry) (st : LedgerState),
      (∀ r ∈ st.rows, r.stat ≠ Stat.approx) →
      ∀ r ∈ (addPhase src₂ st).rows, r.stat ≠ Stat.approx := by
    intro src₂
    induction src₂ with
    | nil => intro st h; exact h
    | cons t rest ih =>
      intro st h
      rw [addPhase, List.foldl_cons]
      show ∀ r ∈ (addPhase rest _).rows, _
      apply ih
      split
      · exact h
      · intro r hmem
        rcases List.mem_append.mp hmem with hm | hm
        · exact h r hm
        · rcases List.mem_singleton.mp hm with rfl
          simp
  apply add
  apply loop
  intro r hmem
  simp [initState] at hmem

theorem insertSorted_perm (x : SimpleRow) :
    ∀ (l : List SimpleRow), List.Perm (insertSorted x l) (x :: l) := by
  intro l
  induction l with
  | nil => exact List.Perm.refl _
  | cons y ys ih =>
    rw [insertSorted]
    split
    · exact List.Perm.refl _
    · exact (List.Perm.cons y ih).trans (List.Perm.swap x y ys)

theorem sortRows_perm : ∀ (l : List SimpleRow), List.Perm (sortRows l) l := by
  intro l
  induction l with
  | nil => exact List.Perm.refl _
  | cons x xs ih =>
    rw [sortRows]
    exact (insertSorted_perm x (sortRows xs)).trans (List.Perm.cons x ih)

theorem statsOfStats_perm (l l' : List Stat) (h : List.Perm l l') :
    statsOfStats l = statsOfStats l' := by
  unfold statsOfStats
  rw [h.countP_eq, h.countP_eq, h.countP_eq, h.countP_eq]

/-! ### `split_variant` lemmas -/

theorem ciStarts_append (kw : List Char) :
    ∀ (s ext : List Char), ciStarts kw s = true → ciStarts kw (s ++ ext) = true := by
  induction kw with
  | nil => intro s ext _; rfl
  | cons a as ih =>
    intro s ext h
    cases s with
    | nil => simp [ciStarts] at h
    | cons b bs =>
      rw [ciStarts, Bool.and_eq_true] at h
      rw [List.cons_append, ciStarts, Bool.and_eq_true]
      exact ⟨h.1, ih bs ext h.2⟩

theorem ciStarts_take (kw : List Char) :
    ∀ (s ext : List Char), ciStarts kw (s ++ ext) = true → kw.length ≤ s.length →
      ciStarts kw s = true := by
  induction kw with
  | nil => intro s ext _ _; rfl
  | cons a as ih =>
    intro s ext h hl
    cases s with
    | nil => simp at hl
    | cons b bs =>
      rw [List.cons_append, ciStarts, Bool.and_eq_true] at h
      rw [ciStarts, Bool.and_eq_true]
      refine ⟨h.1, ih bs ext h.2 ?_⟩
      simp only [List.length_cons] at hl
      omega

theorem ciStarts_cross (d : Char) :
    ∀ (s kw ext : List Char), ciStarts kw (s ++ d :: ext) = true → s.length < kw.length →
      pyLower d ∈ kw := by
  intro s
  induction s with
  | nil =>
    intro kw ext h hl
    cases kw with
    | nil => simp at hl
    | cons a as =>
      rw [List.nil_append, ciStarts, Bool.and_eq_true] at h
      have : a = pyLower d := by simpa using h.1
      rw [this]
      exact List.mem_cons_self _ _
  | cons b bs ih =>
    intro kw ext h hl
    cases kw with
    | nil => simp at hl
    | cons a as =>
      rw [List.cons_append, ciStarts, Bool.and_eq_true] at h
      have hlen : bs.length < as.length := by
        simp only [List.length_cons] at hl
        omega
      exact List.mem_cons_of_mem _ (ih as ext h.2 hlen)

theorem close_not_in_keywords (close : Char) (hc : isCloseBr close = true) :
    ∀ kw ∈ variantKeywords, pyLower close ∉ kw := by
  have : close = ')' ∨ close = ']' := by
    simp only [isCloseBr, Bool.or_eq_true, decide_eq_true_eq] at hc
    exact hc
  rcases this with h | h <;> rw [h] <;> decide

theorem kwAt_append_close (s ext0 : List Char) (close : Char) (hc : isCloseBr close = true)
    (hfit : kwFits s = true) :
    ∃ klen, kwAt (s ++ close :: ext0) = some klen ∧ klen ≤ s.length := by
  obtain ⟨kw, hmem, hkw⟩ := by
    simpa only [kwFits, List.any_eq_true] using hfit
  cases hfind : kwAt (s ++ close :: ext0) with
  | none =>
    rw [kwAt, List.findSome?_eq_none_iff] at hfind
    have := hfind kw hmem
    rw [if_pos (ciStarts_append kw s _ hkw)] at this
    exact absurd this (by simp)
  | some klen =>
    refine ⟨klen, rfl, ?_⟩
    obtain ⟨kw2, hmem2, hkw2⟩ := List.exists_of_findSome?_eq_some hfind
    have hci2 : ciStarts kw2 (s ++ close :: ext0) = true := by
      by_cases hci : ciStarts kw2 (s ++ close :: ext0) = true
      · exact hci
      · rw [if_neg hci] at hkw2
        exact absurd hkw2 (by simp)
    have hlen2 : klen = kw2.length := by
      rw [if_pos hci2] at hkw2
      exact (Option.some.injEq _ _ ▸ hkw2).symm
    by_contra hgt
    have hcross : pyLower close ∈ kw2 :=
      ciStarts_cross close s kw2 ext0 hci2 (by omega)
    exact close_not_in_keywords close hc kw2 hmem2 hcross

theorem kwAt_none_append_close (s ext0 : List Char) (close : Char)
    (hc : isCloseBr close = true) (hnofit : kwFits s = false) :
    kwAt (s ++ close :: ext0) = none := by
  cases hfind : kwAt (s ++ close :: ext0) with
  | none => rfl
  | some klen =>
    obtain ⟨kw2, hmem2, hkw2⟩ := List.exists_of_findSome?_eq_some hfind
    have hci2 : ciStarts kw2 (s ++ close :: ext0) = true := by
      by_cases hci : ciStarts kw2 (s ++ close :: ext0) = true
      · exact hci
      · rw [if_neg hci] at hkw2
        exact absurd hkw2 (by simp)
    by_cases hle : kw2.length ≤ s.length
    · have : ciStarts kw2 s = true := ciStarts_take kw2 s _ hci2 hle
      have : kwFits s = true := by
        rw [kwFits, List.any_eq_true]
        exact ⟨kw2, hmem2, this⟩
      rw [this] at hnofit
      exact absurd hnofit (by simp)
    · have hcross : pyLower close ∈ kw2 :=
        ciStarts_cross close s kw2 ext0 hci2 (by omega)
      exact absurd hcross (close_not_in_keywords close hc kw2 hmem2)

theorem closeScan_main :
    ∀ (r : List Char), (∀ c ∈ r, isCloseBr c = false) →
      ∀ (ws : List Char), ws.all isPySpace = true → ∀ (close : Char), isCloseBr close = true →
      closeScan (r ++ close :: ws) = some r.length := by
  intro r
  induction r with
  | nil =>
    intro _ ws hws close hc
    rw [List.nil_append, closeScan, if_pos hc, if_pos hws]
    rfl
  | cons c r' ih =>
    intro hr ws hws close hc
    rw [List.cons_append, closeScan,
      if_neg (by simp [hr c (List.mem_cons_self _ _)]),
      ih (fun d hd => hr d (List.mem_cons_of_mem _ hd)) ws hws close hc]
    rw [List.length_cons]
    rfl

theorem brFree_not_close (c : Char) (h : brFree c = true) : isCloseBr c = false := by
  rw [brFree, Bool.and_eq_true] at h
  simpa using h.1

theorem brFree_not_newline (c : Char) (h : brFree c = true) : ¬ c = '\n' := by
  rw [brFree, Bool.and_eq_true] at h
  simpa using h.2

theorem tagBody_main :
    ∀ (body : List Char), (∀ c ∈ body, brFree c = true) → containsKwIn body = true →
      ∀ (close : Char), isCloseBr close = true → ∀ (ws : List Char), ws.all isPySpace = true →
      tagBody (body ++ close :: ws) = some (body.length + 1) := by
  intro body
  induction body with
  | nil => intro _ hkw; exact absurd hkw (by simp [containsKwIn])
  | cons c rest ih =>
    intro hbr hkw close hc ws hws
    by_cases hfit : kwFits (c :: rest) = true
    · obtain ⟨klen, hk, hle⟩ := kwAt_append_close (c :: rest) ws close hc hfit
      have hdrop : List.drop klen ((c :: rest) ++ close :: ws) =
          List.drop klen (c :: rest) ++ close :: ws :=
        List.drop_append_of_le_length hle
      have hscan : closeScan (List.drop klen (c :: rest) ++ close :: ws) =
          some ((c :: rest).length - klen) := by
        rw [show (c :: rest).length - klen = (List.drop klen (c :: rest)).length by
          rw [List.length_drop]]
        exact closeScan_main _
          (fun d hd => brFree_not_close d (hbr d (List.drop_subset _ _ hd))) ws hws close hc
      rw [List.cons_append, tagBody, ← List.cons_append]
      simp only [hk, hdrop, hscan, Option.map_some']
      rw [show klen + ((c :: rest).length - klen) + 1 = (c :: rest).length + 1 by
        simp only [List.length_cons] at hle ⊢
        omega]
    · have hfit' : kwFits (c :: rest) = false := bool_eq_false hfit
      have hkrest : containsKwIn rest = true := by
        rw [containsKwIn, hfit', Bool.false_or] at hkw
        exact hkw
      have hk := kwAt_none_append_close (c :: rest) ws close hc hfit'
      rw [List.cons_append, tagBody, ← List.cons_append]
      simp only [hk]
      rw [if_neg (brFree_not_newline c (hbr c (List.mem_cons_self _ _)))]
      rw [ih (fun d hd => hbr d (List.mem_cons_of_mem _ hd)) hkrest close hc ws hws]
      simp only [Option.map_some', List.length_cons]

theorem variantSearch_skip :
    ∀ (pre : List Char), (∀ c ∈ pre, isOpenBr c = false) →
      ∀ (s : List Char) (pos : Nat), variantSearch (pre ++ s) pos = variantSearch s (pos + pre.length) := by
  intro pre
  induction pre with
  | nil => intro _ s pos; simp
  | cons c pre' ih =>
    intro hpre s pos
    rw [List.cons_append, variantSearch, tagMatch,
      if_neg (by simp [hpre c (List.mem_cons_self _ _)])]
    rw [ih (fun d hd => hpre d (List.mem_cons_of_mem _ hd)) s (pos + 1)]
    rw [show pos + 1 + pre'.length = pos + (c :: pre').length by simp; omega]

theorem variantSearch_nomatch :
    ∀ (s : List Char), (∀ c ∈ s, isOpenBr c = false) → ∀ (pos : Nat),
      variantSearch s pos = none := by
  intro s
  induction s with
  | nil => intro _ pos; rfl
  | cons c rest ih =>
    intro hs pos
    rw [variantSearch, tagMatch, if_neg (by simp [hs c (List.mem_cons_self _ _)])]
    exact ih (fun d hd => hs d (List.mem_cons_of_mem _ hd)) (pos + 1)

/-- When the title has no opening bracket at all, `_VARIANT_RE` cannot match
and `split_variant` returns the stripped title with an empty tag. -/
theorem split_variant_nomatch (title : List Char) (h : ∀ c ∈ title, isOpenBr c = false) :
    split_variant title = (pyStrip title, []) := by
  rw [split_variant, variantSearch_nomatch title h 0]

/-- The leftmost-match behaviour of `split_variant` on a title that is some
bracket-free text followed by a well-formed trailing variant tag and
whitespace. -/
theorem split_variant_tagged (pre : List Char) (opn : Char) (body : List Char)
    (cls : Char) (ws : List Char)
    (hpre : ∀ c ∈ pre, isOpenBr c = false)
    (hopn : isOpenBr opn = true)
    (hbody : ∀ c ∈ body, brFree c = true)
    (hkw : containsKwIn body = true)
    (hcls : isCloseBr cls = true)
    (hws : ws.all isPySpace = true) :
    split_variant (pre ++ opn :: (body ++ cls :: ws)) =
      (dropTrailingP isSep pre, opn :: (body ++ [cls])) := by
  have htag : tagMatch (opn :: (body ++ cls :: ws)) = some (body.length + 2) := by
    rw [tagMatch, if_pos hopn, tagBody_main body hbody hkw cls hcls ws hws]
    rfl
  have hsearch : variantSearch (pre ++ opn :: (body ++ cls :: ws)) 0 =
      some (pre.length, pre.length + (body.length + 2)) := by
    rw [variantSearch_skip pre hpre _ 0, variantSearch, htag]
    simp
  have htake1 : (pre ++ opn :: (body ++ cls :: ws)).take pre.length = pre :=
    List.take_left' rfl
  have hsplitlist : pre ++ opn :: (body ++ cls :: ws) =
      (pre ++ opn :: (body ++ [cls])) ++ ws := by
    simp
  have htake2 : (pre ++ opn :: (body ++ cls :: ws)).take (pre.length + (body.length + 2)) =
      pre ++ opn :: (body ++ [cls]) := by
    rw [hsplitlist]
    exact List.take_left'
      (by simp only [List.length_append, List.length_cons, List.length_nil])
  simp only [split_variant, hsearch]
  rw [htake1, htake2, List.drop_left' rfl]

theorem ledgerStep_reject (srcm : List (List Char × Nat)) (f : FuzzyFn)
    (rm iv : Bool) (st : LedgerState) (p : Nat) (k l cand : List Char) (sc : Nat)
    (h0 : dictLookup srcm k = none)
    (hf : f k (dictKeys srcm) = some (cand, sc))
    (hrej : sc < THRESH ∨ memSeen st.seen cand = true) :
    (ledgerStep srcm (some f) rm iv st p (k, l)).rows =
      st.rows ++ (if rm then [⟨none, some p, Stat.removed, l, k⟩] else []) := by
  have hcond : ¬ (THRESH ≤ sc ∧ ¬ memSeen st.seen cand = true) := by
    rcases hrej with h | h
    · intro hc
      omega
    · intro hc
      exact hc.2 h
  simp only [ledgerStep, h0, hf, if_neg hcond]
  by_cases hrm : rm = true
  · rw [if_pos hrm, if_pos hrm]
  · rw [if_neg hrm, if_neg hrm]
    simp

/-! ### The claims -/

/-- Claim C1, as stated, is false: `src_map` is a Python dict comprehension,
so for duplicate canonical keys the LAST source entry's ordinal wins.  With
source entries 1 and 2 both keyed `"k"`, the single matched target row
reports ordinal 2 (status `↓1`), not ordinal 1. -/
theorem C1_counterexample :
    (ledger [⟨1, ("k").toList, ("A").toList⟩, ⟨2, ("k").toList, ("B").toList⟩]
        [((("k").toList), ("X").toList)] false (("m").toList) none).1 =
      [⟨some 2, some 1, Stat.down 1, ("X").toList⟩] ∧
    (⟨some 2, some 1, Stat.down 1, ("X").toList⟩ : SimpleRow).src ≠ some 1 := by
  constructor
  · decide
  · decide

/-- Claim C1 amended: the canonical-key → ordinal mapping keeps, for each
key, the ordinal of the LAST occurrence in source order (earlier duplicates
are shadowed), and every non-added row (matched exactly or approximately,
or removed) carries exactly that mapping's binding for its canonical
key. -/
theorem C1_amended :
    (∀ (src : List SrcEntry) (q : List Char),
      dictLookup (srcMapOf src) q =
        (src.reverse.find? (fun t => t.canon = q)).map SrcEntry.idx) ∧
    (∀ (src : List SrcEntry) (items : List (List Char × List Char)) (iv : Bool)
        (mode : List Char) (fz : Option FuzzyFn),
      ∀ r ∈ (ledgerState src items iv mode fz).rows, r.stat ≠ Stat.added →
        r.src = dictLookup (srcMapOf src) r.ck) := by
  constructor
  · intro src q
    rw [dictLookup_srcMapOf]
    cases src.reverse.find? (fun t => decide (t.canon = q)) with
    | some t => rfl
    | none => rfl
  · intro src items iv mode fz
    exact ledgerState_lookup src items iv mode fz

/-- Witness for the amended C1 at the duplicate-key run. -/
theorem C1_witness :
    (⟨some 2, some 1, Stat.down 1, ("X").toList, ("k").toList⟩ : Row) ∈
      (ledgerState [⟨1, ("k").toList, ("A").toList⟩, ⟨2, ("k").toList, ("B").toList⟩]
        [((("k").toList), ("X").toList)] false (("m").toList) none).rows ∧
    (⟨some 2, some 1, Stat.down 1, ("X").toList, ("k").toList⟩ : Row).src =
      dictLookup
        (srcMapOf [⟨1, ("k").toList, ("A").toList⟩, ⟨2, ("k").toList, ("B").toList⟩])
        (("k").toList) := by
  refine ⟨by decide, ?_⟩
  exact C1_amended.2 [⟨1, ("k").toList, ("A").toList⟩, ⟨2, ("k").toList, ("B").toList⟩]
    [((("k").toList), ("X").toList)] false (("m").toList) none
    ⟨some 2, some 1, Stat.down 1, ("X").toList, ("k").toList⟩ (by decide) (by decide)

/-- Claim C2, as stated, is false: the exact-match branch tests only
`k in src_map` and never consults the consumed set, so with one source
entry keyed `"k"` and two target items keyed `"k"`, the SECOND target item
also matches exactly (row `(1, 2, ↑1)`) instead of falling through to the
approximate/Removed branches. -/
theorem C2_counterexample :
    (ledger [⟨1, ("k").toList, ("A").toList⟩]
        [((("k").toList), ("X").toList), ((("k").toList), ("Y").toList)]
        false (("m").toList) none).1 =
      [⟨some 1, some 1, Stat.unchanged, ("X").toList⟩,
       ⟨some 1, some 2, Stat.up 1, ("Y").toList⟩] ∧
    Stat.up 1 ≠ Stat.approx ∧ Stat.up 1 ≠ Stat.removed := by
  refine ⟨by decide, by decide, by decide⟩

/-- Claim C2 amended: a target item takes the exact-match branch exactly
when its key is in the source mapping, REGARDLESS of whether the key was
already consumed; the key is (re-)marked consumed.  In particular a second
duplicate target item matches exactly again with the same source
ordinal. -/
theorem C2_amended (srcm : List (List Char × Nat)) (fz : Option FuzzyFn) (rm iv : Bool)
    (st : LedgerState) (p : Nat) (k l : List Char) (s : Nat)
    (h : dictLookup srcm k = some s) :
    (ledgerStep srcm fz rm iv st p (k, l)).rows =
      st.rows ++ [⟨some s, some p, offsetStat p s, l, k⟩] ∧
    (ledgerStep srcm fz rm iv st p (k, l)).seen = insertSeen st.seen k :=
  ledgerStep_exact srcm fz rm iv st p k l s h

/-- Witness for the amended C2 at a state whose consumed set already holds
the key. -/
theorem C2_witness :
    dictLookup (srcMapOf [⟨1, ("k").toList, ("A").toList⟩]) (("k").toList) = some 1 ∧
    (ledgerStep (srcMapOf [⟨1, ("k").toList, ("A").toList⟩]) none true false
        ⟨[("k").toList], [], ⟨0, 0, 0, 0⟩, []⟩ 2 ((("k").toList), ("Y").toList)).rows =
      [] ++ [⟨some 1, some 2, offsetStat 2 1, ("Y").toList, ("k").toList⟩] := by
  refine ⟨by decide, ?_⟩
  exact (C2_amended (srcMapOf [⟨1, ("k").toList, ("A").toList⟩]) none true false
    ⟨[("k").toList], [], ⟨0, 0, 0, 0⟩, []⟩ 2 (("k").toList) (("Y").toList) 1 (by decide)).1

/-- Claim C3, as stated, is false: canonicalisation is not idempotent for
the program's override table.  `canonical "ji-hoon"` is `"ji hoon"` (the
hyphen becomes a space only AFTER the overrides ran), and a second
canonicalisation then fires the `"ji hoon" → "jihoon"` override. -/
theorem C3_counterexample :
    canonical id (("ji-hoon").toList) = ("ji hoon").toList ∧
    canonical id (canonical id (("ji-hoon").toList)) = ("jihoon").toList ∧
    canonical id (canonical id (("ji-hoon").toList)) ≠ canonical id (("ji-hoon").toList) := by
  refine ⟨by decide, by decide, by decide⟩

/-- Claim C3 amended: a second canonicalisation is the identity whenever no
override pattern occurs inside the canonical key (and the transliteration
fixes the key, as both the identity fallback and the real `unidecode` —
which is the identity on ASCII — do). -/
theorem C3_amended (translit : List Char → List Char) (x : List Char)
    (h1 : translit (canonical translit x) = canonical translit x)
    (h2 : ∀ pr ∈ OVERRIDES, occursWithin pr.1 (canonical translit x) = false) :
    canonical translit (canonical translit x) = canonical translit x :=
  canonical_stable translit x h1 h2

/-- Witness for the amended C3. -/
theorem C3_witness :
    id (canonical id (("BTS – Butter (Official MV)").toList)) =
      canonical id (("BTS – Butter (Official MV)").toList) ∧
    canonical id (canonical id (("BTS – Butter (Official MV)").toList)) =
      canonical id (("BTS – Butter (Official MV)").toList) := by
  refine ⟨rfl, ?_⟩
  exact C3_amended id (("BTS – Butter (Official MV)").toList) rfl (by decide)

/-- Claim C4, as stated, is false: for source `[A,B]` and target `[B,A]`
the code computes A's offset as `2 - 1 = +1` and prints `↑1` — by the
offset rule (`offset > 0` is MovedUp) A is MovedUp(1) and B is
MovedDown(1), the OPPOSITE of the claimed assignment. -/
theorem C4_counterexample :
    (ledger [⟨1, ("a").toList, ("A").toList⟩, ⟨2, ("b").toList, ("B").toList⟩]
        [((("b").toList), ("B").toList), ((("a").toList), ("A").toList)]
        false (("m").toList) none).1 =
      [⟨some 1, some 2, Stat.up 1, ("A").toList⟩,
       ⟨some 2, some 1, Stat.down 1, ("B").toList⟩] ∧
    Stat.up 1 ≠ Stat.down 1 := by
  refine ⟨by decide, by decide⟩

/-- Claim C4 amended: for source `[A,B]`, target `[B,A]`, A is MovedUp(1)
and B is MovedDown(1), and in general a positive
`offset = targetPosition - sourceOrdinal` yields MovedUp(offset), a
negative one MovedDown(|offset|). -/
theorem C4_amended :
    (ledger [⟨1, ("a").toList, ("A").toList⟩, ⟨2, ("b").toList, ("B").toList⟩]
        [((("b").toList), ("B").toList), ((("a").toList), ("A").toList)]
        false (("m").toList) none).1 =
      [⟨some 1, some 2, Stat.up 1, ("A").toList⟩,
       ⟨some 2, some 1, Stat.down 1, ("B").toList⟩] ∧
    (∀ p s : Nat, 0 < (p : Int) - s →
      offsetStat p s = Stat.up ((p : Int) - (s : Int)).toNat) ∧
    (∀ p s : Nat, (p : Int) - s < 0 →
      offsetStat p s = Stat.down (-((p : Int) - (s : Int))).toNat) := by
  refine ⟨by decide, ?_, ?_⟩
  · intro p s h
    rcases offsetStat_cases p s with ⟨h0, hos⟩ | ⟨h0, hos⟩ | ⟨h0, hos⟩
    · omega
    · exact hos
    · omega
  · intro p s h
    rcases offsetStat_cases p s with ⟨h0, hos⟩ | ⟨h0, hos⟩ | ⟨h0, hos⟩
    · omega
    · omega
    · exact hos

/-- Witness for the amended C4. -/
theorem C4_witness :
    (0 : Int) < (2 : Nat) - ((1 : Nat) : Int) ∧
    offsetStat 2 1 = Stat.up (((2 : Nat) : Int) - ((1 : Nat) : Int)).toNat := by
  refine ⟨by decide, ?_⟩
  exact C4_amended.2.1 2 1 (by decide)

/-- Claim C5, as stated, is false in the video case: the stats are counted
while the rows are emitted, BEFORE the duplicate collapse, so a collapsed
duplicate row's MovedUp count survives in the stats while the row itself is
dropped.  With one source entry and two target duplicates the returned
stats are `up = 1` but the single returned row is Unchanged. -/
theorem C5_counterexample :
    (ledger [⟨1, ("k").toList, ("A").toList⟩]
        [((("k").toList), ("X").toList), ((("k").toList), ("Y").toList)]
        true [] none).2 = ⟨0, 0, 1, 0⟩ ∧
    statsOfStats (((ledger [⟨1, ("k").toList, ("A").toList⟩]
        [((("k").toList), ("X").toList), ((("k").toList), ("Y").toList)]
        true [] none).1).map SimpleRow.stat) = ⟨0, 0, 0, 0⟩ ∧
    (⟨0, 0, 1, 0⟩ : Stats) ≠ ⟨0, 0, 0, 0⟩ := by
  refine ⟨by decide, by decide, by decide⟩

/-- Claim C5 amended: the returned stats are exactly the §4.4 fold over the
rows as emitted BEFORE duplicate collapsing (Added/Removed/MovedUp/
MovedDown increment their counters, Unchanged/Approximate none); hence in
the non-video case — where no collapsing happens — the fold over the
returned rows equals the returned stats. -/
theorem C5_amended :
    (∀ (src : List SrcEntry) (items : List (List Char × List Char)) (iv : Bool)
        (mode : List Char) (fz : Option FuzzyFn),
      (ledger src items iv mode fz).2 =
        statsOfStats ((ledgerState src items iv mode fz).rows.map Row.stat)) ∧
    (∀ (src : List SrcEntry) (items : List (List Char × List Char))
        (mode : List Char) (fz : Option FuzzyFn),
      (ledger src items false mode fz).2 =
        statsOfStats (((ledger src items false mode fz).1).map SimpleRow.stat)) := by
  constructor
  · intro src items iv mode fz
    exact ledgerState_stats src items iv mode fz
  · intro src items mode fz
    have h2 : (ledger src items false mode fz).2 = (ledgerState src items false mode fz).stats := rfl
    have h1 : (ledger src items false mode fz).1 =
        sortRows ((ledgerState src items false mode fz).rows.map
          (fun r => ⟨r.src, r.pos, r.stat, r.label⟩)) := rfl
    rw [h2, h1, ledgerState_stats src items false mode fz]
    apply statsOfStats_perm
    have hperm := (sortRows_perm ((ledgerState src items false mode fz).rows.map
      (fun r => (⟨r.src, r.pos, r.stat, r.label⟩ : SimpleRow)))).map SimpleRow.stat
    have hmaps : (((ledgerState src items false mode fz).rows.map
        (fun r => (⟨r.src, r.pos, r.stat, r.label⟩ : SimpleRow))).map SimpleRow.stat) =
        (ledgerState src items false mode fz).rows.map Row.stat := by
      rw [List.map_map]
      rfl
    rw [← hmaps]
    exact hperm.symm

/-- Claim C6: every canonical key consists only of lower-case ASCII
letters, ASCII digits and single spaces — no two adjacent spaces and no
leading or trailing space — for every input string and every
transliteration front-end. -/
theorem C6_canonical_form (translit : List Char → List Char) (raw : List Char) :
    (∀ c ∈ canonical translit raw, goodChar c = true) ∧
    noTwoSpaces (canonical translit raw) = true ∧
    headNotSpace (canonical translit raw) = true ∧
    lastNotP isPySpace (canonical translit raw) = true :=
  canonicalForm translit raw

/-- Witness for C6 at a concrete noisy input. -/
theorem C6_witness :
    'b' ∈ canonical id (("BTS!! – Butter  (Official MV)").toList) ∧
    goodChar 'b' = true ∧
    noTwoSpaces (canonical id (("BTS!! – Butter  (Official MV)").toList)) = true := by
  refine ⟨by decide, ?_, ?_⟩
  · exact (C6_canonical_form id (("BTS!! – Butter  (Official MV)").toList)).1 'b' (by decide)
  · exact (C6_canonical_form id (("BTS!! – Butter  (Official MV)").toList)).2.1

/-- Claim C7, as stated, is false: the similarity function is queried with
`src_map.keys()` — ALL source keys, consumed ones included — and only the
returned candidate is filtered against the consumed set.  A similarity
function whose answer depends on the choice list separates the two designs:
below, the code run yields a Removed row for target `"zz"` (its best match
`"aa"` is consumed), while the spec-described unconsumed-keys query would
yield an Approximate row against `"bb"`. -/
theorem C7_counterexample :
    (ledger [⟨1, ("aa").toList, ("A").toList⟩, ⟨2, ("bb").toList, ("B").toList⟩]
        [((("aa").toList), ("X").toList), ((("zz").toList), ("Z").toList)]
        false (("m").toList)
        (some (fun _ keys =>
          if keys.contains (("aa").toList) then some ((("aa").toList), 95)
          else some ((("bb").toList), 95)))).1 =
      [⟨some 1, some 1, Stat.unchanged, ("X").toList⟩,
       ⟨some 2, none, Stat.added, ("B").toList⟩,
       ⟨none, some 2, Stat.removed, ("Z").toList⟩] ∧
    (specLedgerC7 [⟨1, ("aa").toList, ("A").toList⟩, ⟨2, ("bb").toList, ("B").toList⟩]
        [((("aa").toList), ("X").toList), ((("zz").toList), ("Z").toList)]
        false (("m").toList)
        (some (fun _ keys =>
          if keys.contains (("aa").toList) then some ((("aa").toList), 95)
          else some ((("bb").toList), 95)))).1 =
      [⟨some 1, some 1, Stat.unchanged, ("X").toList⟩,
       ⟨some 2, some 2, Stat.approx, ("Z").toList⟩] ∧
    ([⟨some 1, some 1, Stat.unchanged, ("X").toList⟩,
      ⟨some 2, none, Stat.added, ("B").toList⟩,
      ⟨none, some 2, Stat.removed, ("Z").toList⟩] : List SimpleRow) ≠
      [⟨some 1, some 1, Stat.unchanged, ("X").toList⟩,
       ⟨some 2, some 2, Stat.approx, ("Z").toList⟩] := by
  refine ⟨by decide, by decide, by decide⟩

/-- Claim C7 amended: the similarity function is queried against ALL source
keys; its candidate is accepted exactly when the score reaches the fixed
threshold 90 AND the candidate is not yet consumed (then an Approximate row
with the candidate's ordinal is emitted and the candidate marked consumed);
a returned-but-rejected candidate, like an absent similarity function,
degrades the step to a no-op and the item falls through to the Removed
branch — never an error, and with no similarity function no Approximate row
ever appears. -/
theorem C7_amended :
    (∀ (srcm : List (List Char × Nat)) (f : FuzzyFn) (rm iv : Bool) (st : LedgerState)
        (p : Nat) (k l cand : List Char) (sc s : Nat),
      dictLookup srcm k = none →
      f k (dictKeys srcm) = some (cand, sc) →
      THRESH ≤ sc →
      memSeen st.seen cand = false →
      dictLookup srcm cand = some s →
      (ledgerStep srcm (some f) rm iv st p (k, l)).rows =
        st.rows ++ [⟨some s, some p, Stat.approx, l, cand⟩]) ∧
    (∀ (srcm : List (List Char × Nat)) (f : FuzzyFn) (rm iv : Bool) (st : LedgerState)
        (p : Nat) (k l cand : List Char) (sc : Nat),
      dictLookup srcm k = none →
      f k (dictKeys srcm) = some (cand, sc) →
      (sc < THRESH ∨ memSeen st.seen cand = true) →
      (ledgerStep srcm (some f) rm iv st p (k, l)).rows =
        st.rows ++ (if rm then [⟨none, some p, Stat.removed, l, k⟩] else [])) ∧
    (∀ (srcm : List (List Char × Nat)) (rm iv : Bool) (st : LedgerState)
        (p : Nat) (k l : List Char),
      dictLookup srcm k = none →
      (ledgerStep srcm none rm iv st p (k, l)).rows =
        st.rows ++ (if rm then [⟨none, some p, Stat.removed, l, k⟩] else [])) ∧
    (∀ (src : List SrcEntry) (items : List (List Char × List Char)) (iv : Bool)
        (mode : List Char),
      ∀ r ∈ (ledgerState src items iv mode none).rows, r.stat ≠ Stat.approx) := by
  refine ⟨?_, ?_, ?_, ?_⟩
  · intro srcm f rm iv st p k l cand sc s h0 hf hsc hseen hcand
    exact (ledgerStep_approx srcm f rm iv st p k l cand sc s h0 hf hsc hseen hcand).1
  · intro srcm f rm iv st p k l cand sc h0 hf hrej
    exact ledgerStep_reject srcm f rm iv st p k l cand sc h0 hf hrej
  · intro srcm rm iv st p k l h0
    exact (ledgerStep_nofuzzy srcm rm iv st p k l h0).1
  · intro src items iv mode
    exact ledgerState_noapprox src items iv mode

/-- Witness for the amended C7. -/
theorem C7_witness :
    dictLookup [(("bb").toList, 2)] (("zz").toList) = none ∧
    (ledgerStep [(("bb").toList, 2)]
        (some (fun _ _ => some ((("bb").toList), 95))) true false initState 5
        ((("zz").toList), ("Z").toList)).rows =
      [] ++ [⟨some 2, some 5, Stat.approx, ("Z").toList, ("bb").toList⟩] := by
  refine ⟨by decide, ?_⟩
  exact C7_amended.1 [(("bb").toList, 2)] (fun _ _ => some ((("bb").toList), 95))
    true false initState 5 (("zz").toList) (("Z").toList) (("bb").toList) 95 2
    (by decide) (by decide) (by decide) (by decide) (by decide)

/-- Claim C8, as stated, is false on two counts: with no trailing tag the
code returns `title.strip()`, not the title unchanged (so
`" Plain Title "` maps to `"Plain Title"`), and for titles whose prefix
contains further brackets the leftmost-match rule makes the tag start at
the FIRST opening bracket from which a match to the end exists —
`"(mv (mv)"` yields the whole string as the tag, not the final
`"(mv)"`. -/
theorem C8_counterexample :
    split_variant ((" Plain Title ").toList) = (("Plain Title").toList, []) ∧
    ((("Plain Title").toList, ([] : List Char)) ≠ ((" Plain Title ").toList, ([] : List Char))) ∧
    split_variant (("(mv (mv)").toList) = ([], ("(mv (mv)").toList) ∧
    ((([] : List Char), ("(mv (mv)").toList) ≠ ((("(mv").toList), ("(mv)").toList)) := by
  refine ⟨by decide, by decide, by decide, by decide⟩

/-- Claim C8 amended: a title with no opening bracket has no variant tag
and is returned STRIPPED of surrounding whitespace with an empty tag; a
title of the form `pre ++ open ++ body ++ close ++ whitespace`, where `pre`
is free of opening brackets and `body` is free of closing brackets and
newlines and contains a variant keyword, splits into `pre` trimmed of
trailing separators and the bracketed tag; in particular
`split_variant "Butter (Official MV)" = ("Butter", "(Official MV)")` and
`split_variant "Plain Title" = ("Plain Title", "")`. -/
theorem C8_amended :
    (∀ (title : List Char), (∀ c ∈ title, isOpenBr c = false) →
      split_variant title = (pyStrip title, [])) ∧
    (∀ (pre : List Char) (opn : Char) (body : List Char) (cls : Char) (ws : List Char),
      (∀ c ∈ pre, isOpenBr c = false) → isOpenBr opn = true →
      (∀ c ∈ body, brFree c = true) → containsKwIn body = true →
      isCloseBr cls = true → ws.all isPySpace = true →
      split_variant (pre ++ opn :: (body ++ cls :: ws)) =
        (dropTrailingP isSep pre, opn :: (body ++ [cls]))) ∧
    split_variant (("Butter (Official MV)").toList) =
      (("Butter").toList, ("(Official MV)").toList) ∧
    split_variant (("Plain Title").toList) = (("Plain Title").toList, []) := by
  refine ⟨split_variant_nomatch, split_variant_tagged, by decide, by decide⟩

/-- Witness for the amended C8. -/
theorem C8_witness :
    split_variant ((("Butter ").toList) ++ '(' :: (((("Official MV").toList)) ++ ')' :: [])) =
      (dropTrailingP isSep (("Butter ").toList),
        '(' :: ((("Official MV").toList) ++ [')'])) ∧
    split_variant ((" Plain Title ").toList) = (pyStrip ((" Plain Title ").toList), []) := by
  refine ⟨?_, ?_⟩
  · exact C8_amended.2.1 (("Butter ").toList) '(' (("Official MV").toList) ')' []
      (by decide) (by decide) (by decide) (by decide) (by decide) (by decide)
  · exact C8_amended.1 ((" Plain Title ").toList) (by decide)

/-- Claim C9, as stated, is false for the title half: the code reads
`getattr(itm, "title", "<Untitled>")`, so the `"<Untitled>"` sentinel is
used only when the title attribute is MISSING; an item whose title
attribute is present but empty yields no non-empty title value yet is used
as the empty string, giving the label `"<Unknown> – "` rather than the
sentinel. -/
theorem C9_counterexample :
    ( plex_key_audio id ⟨none, none, none, some []⟩).2 = ("<Unknown> – ").toList ∧
    ("<Unknown> – ").toList ≠ ("<Unknown> – <Untitled>").toList := by
  refine ⟨by decide, by decide⟩

/-- Claim C9 amended: the audio key adapter is a total function; when no
non-empty artist candidate exists (each probed attribute missing or empty)
the `"<Unknown>"` sentinel is used, and an item with a MISSING title
attribute behaves exactly as one whose title is the `"<Untitled>"` sentinel
string; an empty-but-present title is used as the empty string. -/
theorem C9_amended :
    (∀ (translit : List Char → List Char) (g a p t : Option (List Char)),
      (g = none ∨ g = some []) → (a = none ∨ a = some []) → (p = none ∨ p = some []) →
      plex_key_audio translit ⟨g, a, p, t⟩ =
        (canonical translit ((("<Unknown>").toList) ++ ' ' :: t.getD (("<Untitled>").toList)),
         (("<Unknown>").toList) ++ ((" – ").toList) ++ t.getD (("<Untitled>").toList))) ∧
    (∀ (translit : List Char → List Char) (g a p : Option (List Char)),
      plex_key_audio translit ⟨g, a, p, none⟩ =
        plex_key_audio translit ⟨g, a, p, some (("<Untitled>").toList)⟩) := by
  constructor
  · intro translit g a p t hg ha hp
    rcases hg with rfl | rfl <;> rcases ha with rfl | rfl <;> rcases hp with rfl | rfl <;> rfl
  · intro translit g a p
    rfl

/-- Witness for the amended C9. -/
theorem C9_witness :
    plex_key_audio id ⟨none, some [], none, some (("Song").toList)⟩ =
      (canonical id ((("<Unknown>").toList) ++ ' ' :: ("Song").toList),
       (("<Unknown>").toList) ++ ((" – ").toList) ++ ("Song").toList) := by
  exact C9_amended.1 id none (some []) none (some (("Song").toList))
    (Or.inl rfl) (Or.inr rfl) (Or.inl rfl)

/-- Claim C10: a row emitted through the approximate-match path stores the
matched source CANDIDATE's canonical key — the very key that is marked
consumed — in its canonical-key field, while its label is the target
item's. -/
theorem C10_approx_row (srcm : List (List Char × Nat)) (f : FuzzyFn)
    (rm iv : Bool) (st : LedgerState) (p : Nat) (k l cand : List Char) (sc s : Nat)
    (h0 : dictLookup srcm k = none)
    (hf : f k (dictKeys srcm) = some (cand, sc))
    (hsc : THRESH ≤ sc)
    (hseen : memSeen st.seen cand = false)
    (hcand : dictLookup srcm cand = some s) :
    (ledgerStep srcm (some f) rm iv st p (k, l)).rows =
      st.rows ++ [⟨some s, some p, Stat.approx, l, cand⟩] ∧
    (ledgerStep srcm (some f) rm iv st p (k, l)).seen = insertSeen st.seen cand :=
  ledgerStep_approx srcm f rm iv st p k l cand sc s h0 hf hsc hseen hcand

/-- Witness for C10 with a candidate key different from the target key. -/
theorem C10_witness :
    (("qq").toList ≠ ("bb").toList) ∧
    (ledgerStep [(("bb").toList, 7)]
        (some (fun _ _ => some ((("bb").toList), 92))) false true initState 3
        ((("qq").toList), ("L").toList)).rows =
      [] ++ [⟨some 7, some 3, Stat.approx, ("L").toList, ("bb").toList⟩] ∧
    (ledgerStep [(("bb").toList, 7)]
        (some (fun _ _ => some ((("bb").toList), 92))) false true initState 3
        ((("qq").toList), ("L").toList)).seen = insertSeen [] (("bb").toList) := by
  refine ⟨by decide, ?_⟩
  exact C10_approx_row [(("bb").toList, 7)] (fun _ _ => some ((("bb").toList), 92))
    false true initState 3 (("qq").toList) (("L").toList) (("bb").toList) 92 7
    (by decide) (by decide) (by decide) (by decide) (by decide)

end KpbSync
